/-
Verification of the LinkedIn job harvester's cleaning, deduplication,
selector-fallback, quality-scoring and harvest-loop logic.

Strings are modelled as lists of characters (`Str`).  The regular
expressions used by the cleaners are all of a very restricted shape
(anchored suffix noise patterns, whitespace collapsing, and the two
location patterns); each is translated into an explicit recursive
matcher that implements exactly the leftmost-match / greedy-backtracking
semantics of the original pattern on the strings it is applied to.
Floating point quality scores are modelled with exact rationals.
-/
import Mathlib

namespace Harvester

/-- Strings are modelled as lists of characters. -/
abbrev Str := List Char

/-- Python whitespace (the characters matched by the regex class and by
the default argument of `str.strip`), restricted to ASCII. -/
def isWsC (c : Char) : Bool :=
  c = ' ' || c = '\t' || c = '\n' || c = '\r' || c = '\x0b' || c = '\x0c'

/-- Left strip: Python `str.lstrip()`. -/
def lstrip (s : Str) : Str := s.dropWhile isWsC

/-- Right strip: Python `str.rstrip()`. -/
def rstrip (s : Str) : Str := (s.reverse.dropWhile isWsC).reverse

/-- Python `str.strip()`. -/
def stripWs (s : Str) : Str := rstrip (lstrip s)

/-- Python `str.lower()` (ASCII model). -/
def lowerStr (s : Str) : Str := s.map Char.toLower

/-- Python `str.upper()` (ASCII model). -/
def upperStr (s : Str) : Str := s.map Char.toUpper

/-- Worker for whitespace collapsing.  The flag records whether a
whitespace run is pending; a single space is emitted in front of the
next non-whitespace character. -/
def cgo : Bool → Str → Str
  | _, [] => []
  | pend, c :: rest =>
    if isWsC c then cgo true rest
    else if pend then ' ' :: c :: cgo false rest
    else c :: cgo false rest

/-- Python `re.sub(r"\s+", " ", s.strip())`: strip, then replace every
whitespace run by a single space. -/
def collapseWs (s : Str) : Str := cgo false (s.dropWhile isWsC)

/-- Every whitespace character of the string is a plain space. -/
def wsSpace (t : Str) : Bool := t.all (fun c => !isWsC c || c = ' ')

/-- No two adjacent whitespace characters. -/
def noAdjWs : Str → Bool
  | [] => true
  | [_] => true
  | a :: b :: t => (!(isWsC a && isWsC b)) && noAdjWs (b :: t)

/-- The string does not start with whitespace. -/
def noLeadWs : Str → Bool
  | [] => true
  | c :: _ => !isWsC c

/-- The string does not end with whitespace. -/
def noTrailWs : Str → Bool
  | [] => true
  | [c] => !isWsC c
  | _ :: c :: t => noTrailWs (c :: t)

/-- Canonical form produced by `collapseWs`. -/
def goodStr (t : Str) : Bool :=
  noLeadWs t && noTrailWs t && noAdjWs t && wsSpace t

theorem noAdjWs_cons {c : Char} {t : Str} (hc : isWsC c = false)
    (ht : noAdjWs t = true) : noAdjWs (c :: t) = true := by
  cases t with
  | nil => rfl
  | cons d t => simp [noAdjWs, hc]; exact ht

theorem noTrailWs_cons {c : Char} {t : Str} (hc : isWsC c = false)
    (ht : noTrailWs t = true) : noTrailWs (c :: t) = true := by
  cases t with
  | nil => simp [noTrailWs, hc]
  | cons d t => simpa [noTrailWs] using ht

theorem noAdjWs_of_cons {c : Char} {t : Str}
    (h : noAdjWs (c :: t) = true) : noAdjWs t = true := by
  cases t with
  | nil => rfl
  | cons d t =>
    simp [noAdjWs] at h
    exact h.2

theorem noTrailWs_of_cons {c : Char} {t : Str} (ht : t ≠ [])
    (h : noTrailWs (c :: t) = true) : noTrailWs t = true := by
  cases t with
  | nil => exact absurd rfl ht
  | cons d t => simpa [noTrailWs] using h

theorem wsSpace_of_cons {c : Char} {t : Str}
    (h : wsSpace (c :: t) = true) : wsSpace t = true := by
  simp [wsSpace] at h ⊢
  exact h.2

/-- Structural invariants of the collapse worker. -/
theorem cgo_invariants : ∀ (t : Str) (pend : Bool),
    noTrailWs (cgo pend t) = true ∧ noAdjWs (cgo pend t) = true ∧
    wsSpace (cgo pend t) = true := by
  intro t
  induction t with
  | nil => intro pend; exact ⟨rfl, rfl, rfl⟩
  | cons c rest ih =>
    intro pend
    by_cases hc : isWsC c = true
    · simpa [cgo, hc] using ih true
    · have hc' : isWsC c = false := by simpa using hc
      obtain ⟨h1, h2, h3⟩ := ih false
      have htrail : noTrailWs (c :: cgo false rest) = true := by
        cases hR : cgo false rest with
        | nil => simp [noTrailWs, hc']
        | cons d t => rw [hR] at h1; simpa [noTrailWs] using h1
      have hadj : noAdjWs (c :: cgo false rest) = true := noAdjWs_cons hc' h2
      have hws : wsSpace (c :: cgo false rest) = true := by
        simp [wsSpace, hc'] at h3 ⊢
        exact h3
      cases pend with
      | false =>
        have e : cgo false (c :: rest) = c :: cgo false rest := by
          simp [cgo, hc']
        rw [e]
        exact ⟨htrail, hadj, hws⟩
      | true =>
        have e : cgo true (c :: rest) = ' ' :: c :: cgo false rest := by
          simp [cgo, hc']
        rw [e]
        refine ⟨?_, ?_, ?_⟩
        · simpa [noTrailWs] using htrail
        · simpa [noAdjWs, hc'] using hadj
        · simp [wsSpace, isWsC] at hws ⊢
          exact hws

theorem dropWhile_head_false (p : Char → Bool) :
    ∀ l : Str, l.dropWhile p = [] ∨
      ∃ c t, l.dropWhile p = c :: t ∧ p c = false := by
  intro l
  induction l with
  | nil => exact Or.inl rfl
  | cons c t ih =>
    by_cases hc : p c = true
    · simpa [List.dropWhile, hc] using ih
    · right
      exact ⟨c, t, by simp [List.dropWhile, hc], by simpa using hc⟩

/-- The collapse of any string is in canonical form. -/
theorem goodStr_collapseWs (s : Str) : goodStr (collapseWs s) = true := by
  obtain ⟨h1, h2, h3⟩ := cgo_invariants (s.dropWhile isWsC) false
  have hlead : noLeadWs (collapseWs s) = true := by
    rcases dropWhile_head_false isWsC s with h | ⟨c, t, heq, hc⟩
    · simp [collapseWs, h, cgo, noLeadWs]
    · simp [collapseWs, heq, cgo, hc, noLeadWs]
  simp only [goodStr, Bool.and_eq_true]
  exact ⟨⟨⟨hlead, h1⟩, h2⟩, h3⟩

theorem dropWhile_eq_self_of_noLead {t : Str} (h : noLeadWs t = true) :
    t.dropWhile isWsC = t := by
  cases t with
  | nil => rfl
  | cons c rest =>
    simp [noLeadWs] at h
    simp [List.dropWhile, h]

/-- On canonical strings the collapse worker is the identity. -/
theorem cgo_fix : ∀ (n : Nat) (t : Str), t.length ≤ n →
    noAdjWs t = true → noTrailWs t = true → wsSpace t = true →
    ((noLeadWs t = true → cgo false t = t) ∧
     (noLeadWs t = true → t ≠ [] → cgo true t = ' ' :: t)) := by
  intro n
  induction n with
  | zero =>
    intro t ht _ _ _
    have : t = [] := List.length_eq_zero.mp (Nat.le_zero.mp ht)
    subst this
    exact ⟨fun _ => rfl, fun _ h => absurd rfl h⟩
  | succ n ih =>
    intro t ht hadj htrail hws
    cases t with
    | nil => exact ⟨fun _ => rfl, fun _ h => absurd rfl h⟩
    | cons c rest =>
      have hrest : cgo false rest = rest := by
        cases rest with
        | nil => rfl
        | cons d r2 =>
          have hadj' : noAdjWs (d :: r2) = true := noAdjWs_of_cons hadj
          have htrail' : noTrailWs (d :: r2) = true :=
            noTrailWs_of_cons (by simp) htrail
          have hws' : wsSpace (d :: r2) = true := wsSpace_of_cons hws
          have hlen : (d :: r2).length ≤ n := by
            simp at ht ⊢
            omega
          by_cases hd : isWsC d = true
          · have hdsp : d = ' ' := by
              simp [wsSpace, hd] at hws'
              exact hws'.1
            have hr2ne : r2 ≠ [] := by
              intro h
              subst h
              simp [noTrailWs, hd] at htrail'
            cases r2 with
            | nil => exact absurd rfl hr2ne
            | cons e r3 =>
              have he : isWsC e = false := by
                simp [noAdjWs, hd] at hadj'
                exact hadj'.1
              have hadj'' : noAdjWs (e :: r3) = true := noAdjWs_of_cons hadj'
              have htrail'' : noTrailWs (e :: r3) = true :=
                noTrailWs_of_cons (by simp) htrail'
              have hws'' : wsSpace (e :: r3) = true := wsSpace_of_cons hws'
              have hlen' : (e :: r3).length ≤ n := by
                simp at hlen ⊢
                omega
              have h2 := (ih (e :: r3) hlen' hadj'' htrail'' hws'').2
                (by simp [noLeadWs, he]) (by simp)
              calc cgo false (d :: e :: r3) = cgo true (e :: r3) := by
                    simp [cgo, hd]
                _ = ' ' :: e :: r3 := h2
                _ = d :: e :: r3 := by rw [hdsp]
          · have hd' : isWsC d = false := by simpa using hd
            exact (ih (d :: r2) hlen hadj' htrail' hws').1 (by simp [noLeadWs, hd'])
      constructor
      · intro hlead
        have hc : isWsC c = false := by simpa [noLeadWs] using hlead
        simp [cgo, hc, hrest]
      · intro hlead _
        have hc : isWsC c = false := by simpa [noLeadWs] using hlead
        simp [cgo, hc, hrest]

/-- Canonical strings are fixed points of collapsing. -/
theorem collapseWs_of_goodStr {t : Str} (h : goodStr t = true) :
    collapseWs t = t := by
  simp only [goodStr, Bool.and_eq_true] at h
  obtain ⟨⟨⟨hlead, htrail⟩, hadj⟩, hws⟩ := h
  rw [collapseWs, dropWhile_eq_self_of_noLead hlead]
  exact (cgo_fix t.length t (le_refl _) hadj htrail hws).1 hlead

/-- Collapsing is idempotent. -/
theorem collapseWs_idem (s : Str) : collapseWs (collapseWs s) = collapseWs s :=
  collapseWs_of_goodStr (goodStr_collapseWs s)

/-- Case-insensitive literal matcher: eats the word `w` (given in
lowercase) from the front of `r`, comparing case-insensitively, and
returns the remainder. -/
def eatCI : Str → Str → Option Str
  | [], r => some r
  | _, [] => none
  | c :: w, d :: r => if d.toLower = c then eatCI w r else none

/-- Eats a reversed token sequence with optional whitespace between
the tokens and at the end, from a reversed string. -/
def eatRev : List Str → Str → Option Str
  | [], r => some r
  | w :: rest, r =>
    match eatCI w.reverse r with
    | some r2 => eatRev rest (r2.dropWhile isWsC)
    | none => none

/-- Python `re.sub(p, "", t, flags=re.IGNORECASE)` for an anchored
suffix pattern `p` of the shape `\s*w1\s*w2...\s*wk\s*$` with literal
words `w1..wk` (lowercase).  The leftmost match of such a pattern is
the longest suffix of this shape, i.e. it also swallows the whitespace
run in front of the first word; at most one replacement happens. -/
def sub_suffix (words : List Str) (t : Str) : Str :=
  match eatRev words.reverse (t.reverse.dropWhile isWsC) with
  | some r2 => (r2.dropWhile isWsC).reverse
  | none => t

/-- `JobDataValidator._clean_title`: collapse whitespace, strip a
trailing "(remote)" parenthetical, strip a trailing "- remote", strip. -/
def clean_title (title : Str) : Str :=
  let t := collapseWs title
  let t2 := sub_suffix [['('], "remote".toList, [')']] t
  let t3 := sub_suffix [['-'], "remote".toList] t2
  stripWs t3

/-- Helper for the company noise pattern `\s*\(.*?\)\s*$`: on the
reversed remainder (after the final `)`), returns what follows the last
`(` that is not preceded (in original order: followed) by a newline;
`.` in the pattern does not match newlines. -/
def afterLastOpenSeg : Str → Option Str
  | [] => none
  | c :: t =>
    if c = '\n' then none
    else
      match afterLastOpenSeg t with
      | some r => some r
      | none => if c = '(' then some t else none

/-- Python `re.sub(r"\s*\(.*?\)\s*$", "", t)`: if the string ends
(after trailing whitespace) in `)` and contains an earlier `(` with no
newline in between, everything from the whitespace run before that
first `(` to the end is removed. -/
def sub_paren (t : Str) : Str :=
  match t.reverse.dropWhile isWsC with
  | ')' :: rest =>
    match afterLastOpenSeg rest with
    | some r => (r.dropWhile isWsC).reverse
    | none => t
  | _ => t

/-- Worker for the pipe noise pattern. -/
def sub_pipe_go (accRev : Str) : Str → Str
  | [] => accRev.reverse
  | c :: rest =>
    if c = '|' then (accRev.dropWhile isWsC).reverse
    else sub_pipe_go (c :: accRev) rest

/-- Python `re.sub(r"\s*\|\s*.*$", "", t)` on newline-free strings
(`clean_company` only applies it to collapsed strings): cut at the
first `|`, also removing the whitespace run before it. -/
def sub_pipe (t : Str) : Str := sub_pipe_go [] t

/-- `JobDataValidator._clean_company`: collapse whitespace, then apply
the three noise patterns (trailing parenthetical, trailing
"- hiring now", everything after a pipe), then strip. -/
def clean_company (company : Str) : Str :=
  let t := collapseWs company
  let t2 := sub_paren t
  let t3 := sub_suffix [['-'], "hiring".toList, "now".toList] t2
  let t4 := sub_pipe t3
  stripWs t4

/-- ASCII uppercase letter, the regex class `[A-Z]`. -/
def isUpperAZ (c : Char) : Bool := 'A' ≤ c && c ≤ 'Z'

/-- ASCII letter, the regex class `[A-Za-z]`. -/
def isLetterAZ (c : Char) : Bool :=
  ('A' ≤ c && c ≤ 'Z') || ('a' ≤ c && c ≤ 'z')

/-- No newline occurs in the string. -/
def noNL (t : Str) : Bool := t.all (fun c => c ≠ '\n')

/-- Whether `.*$` can consume the remainder `u`: either `u` is
newline-free, or it is newline-free except for a single final newline
(before which `$` matches). -/
def tailOK (u : Str) : Bool :=
  noNL u ||
    (match u.reverse with
     | '\n' :: v => noNL v
     | _ => false)

/-- The `,?` step of the location patterns: optionally eat one comma
(the regex prefers eating it, and not eating it can never succeed since
a comma matches neither `\s`, `[A-Z]` nor `[A-Za-z\s]`). -/
def dropComma : Str → Str
  | [] => []
  | c :: v => if c = ',' then v else c :: v

/-- Continuation check of the first location pattern
`^([^,]+),?\s*([A-Z]{2}).*$` after the group-1 split: optionally eat a
comma, greedily eat whitespace, require two ASCII uppercase letters,
and let `.*$` consume the rest.  Returns the region group. -/
def check1 : Str → Option Str
  | [] => none
  | c :: v =>
    match (dropComma (c :: v)).dropWhile isWsC with
    | a :: b :: rest =>
      if isUpperAZ a && isUpperAZ b && tailOK rest then some [a, b] else none
    | _ => none

/-- Greedy group-1 search: the longest nonempty comma-free prefix whose
continuation matches is tried first, mirroring the backtracking order
of `([^,]+)`. -/
def try1 (t : Str) : Nat → Option (Str × Str)
  | 0 => none
  | k + 1 =>
    match check1 (t.drop (k + 1)) with
    | some reg => some (t.take (k + 1), reg)
    | none => try1 t k

/-- Character distinct from a comma, the regex class `[^,]`. -/
def notComma (c : Char) : Bool := c != ','

/-- Length of the longest comma-free prefix, the bound for group 1. -/
def commaFreeLen (t : Str) : Nat := (t.takeWhile notComma).length

/-- Python `re.match` of the first location pattern. -/
def match_loc1 (t : Str) : Option (Str × Str) := try1 t (commaFreeLen t)

/-- Continuation check of the second location pattern
`^([^,]+),?\s*([A-Za-z\s]+)$`: optionally eat a comma; if the rest is
all whitespace `\s*` backtracks by one so the group is the final
whitespace character, otherwise the group is the rest after the
greedily eaten whitespace, required to be letters and whitespace. -/
def check2 : Str → Option Str
  | [] => none
  | c :: v =>
    match dropComma (c :: v) with
    | [] => none
    | d :: w =>
      if (d :: w).all isWsC then
        match (d :: w).reverse with
        | x :: _ => some [x]
        | [] => none
      else
        if ((d :: w).dropWhile isWsC).all (fun e => isLetterAZ e || isWsC e) then
          some ((d :: w).dropWhile isWsC)
        else none

/-- Greedy group-1 search for the second location pattern. -/
def try2 (t : Str) : Nat → Option (Str × Str)
  | 0 => none
  | k + 1 =>
    match check2 (t.drop (k + 1)) with
    | some g2 => some (t.take (k + 1), g2)
    | none => try2 t k

/-- Python `re.match` of the second location pattern. -/
def match_loc2 (t : Str) : Option (Str × Str) := try2 t (commaFreeLen t)

/-- `JobDataValidator._clean_location`: collapse whitespace, then try
the two standardisation patterns in order; on a match return
`"{city.strip()}, {region.strip()}"`, otherwise the stripped string. -/
def clean_location (loc : Str) : Str :=
  let t := collapseWs loc
  match match_loc1 t with
  | some (g1, reg) => stripWs g1 ++ [',', ' '] ++ stripWs reg
  | none =>
    match match_loc2 t with
    | some (g1, g2) => stripWs g1 ++ [',', ' '] ++ stripWs g2
    | none => stripWs t

/-- `JobDataValidator._clean_summary`: collapse whitespace, truncate to
497 characters plus an ellipsis when longer than 500, strip. -/
def clean_summary (s : Str) : Str :=
  let t := collapseWs s
  let u := if 500 < t.length then t.take 497 ++ "...".toList else t
  stripWs u

/-- Worker locating the first separator character. -/
def splitFirstGo (sep : Char) (accRev : Str) : Str → Option (Str × Str)
  | [] => none
  | c :: rest =>
    if c = sep then some (accRev.reverse, rest)
    else splitFirstGo sep (c :: accRev) rest

/-- Worker splitting on every separator occurrence. -/
def splitOnCharGo (sep : Char) (accRev : Str) : Str → List Str
  | [] => [accRev.reverse]
  | c :: rest =>
    if c = sep then accRev.reverse :: splitOnCharGo sep [] rest
    else splitOnCharGo sep (c :: accRev) rest

/-- Python `t.split(sep)` for a single-character separator. -/
def splitOnChar (sep : Char) (t : Str) : List Str := splitOnCharGo sep [] t

/-- `JobDataValidator._clean_url`: strip, upgrade a leading `http://`
to `https://`, and drop all query parameters except `currentJobId=` and
`jobId=` ones. -/
def clean_url (url : Str) : Str :=
  let u := stripWs url
  let u2 := if ("http://".toList).isPrefixOf u then "https://".toList ++ u.drop 7 else u
  match splitFirstGo '?' [] u2 with
  | none => u2
  | some (base, params) =>
    let ess := (splitOnChar '&' params).filter
      (fun p => ("currentJobId=".toList).isPrefixOf p || ("jobId=".toList).isPrefixOf p)
    if ess = [] then base else base ++ ['?'] ++ List.intercalate ['&'] ess

/-- Word character of the regex `\b` boundary, `[A-Za-z0-9_]`. -/
def isWordChar (c : Char) : Bool :=
  isLetterAZ c || ('0' ≤ c && c ≤ '9') || c = '_'

/-- Literal alternatives of the LinkedIn artifact suffix pattern. -/
def artifactWords : List Str :=
  ["new".toList, "hiring".toList, "actively recruiting".toList]

/-- Whether one artifact word matches here, followed only by
whitespace up to the end of the string. -/
def artifactHere (t : Str) : Bool :=
  artifactWords.any fun w =>
    match eatCI w t with
    | some rest => rest.all isWsC
    | none => false

/-- Word-boundary condition before the candidate position. -/
def boundaryB : Option Char → Bool
  | none => true
  | some p => !isWordChar p

/-- Worker scanning for the leftmost artifact suffix match of
`\b(new|hiring|actively recruiting)\s*$`. -/
def artifactGo (prev : Option Char) (accRev : Str) : Str → Str
  | [] => accRev.reverse
  | c :: rest =>
    if boundaryB prev && artifactHere (c :: rest) then accRev.reverse
    else artifactGo (some c) (c :: accRev) rest

/-- `EnhancedLinkedInJobHarvester._clean_extracted_text`: collapse
whitespace, remove a trailing LinkedIn artifact word, truncate to the
configured maximum title length (200) with a strip when exceeded. -/
def clean_extracted_text (text : Str) : Str :=
  let c := collapseWs text
  let c2 := artifactGo none [] c
  if 200 < c2.length then stripWs (c2.take 200) else c2


/-- Truthiness of an optional string field: Python treats a missing
key, `None` and the empty string alike as falsy. -/
def truthyS : Option Str → Bool
  | none => false
  | some s => !s.isEmpty

/-- Outcome of trying one CSS selector pattern against a node:
no element matched, an element with the given (already stripped) text
matched, or the selector engine raised an exception. -/
inductive TryResult where
  | notFound : TryResult
  | found : Str → TryResult
  | raised : TryResult
deriving DecidableEq

/-- `EnhancedLinkedInJobHarvester._extract_with_selector_fallbacks`:
try each selector in order; on a match whose stripped text has length
at least 2, return its cleaned text; exceptions are swallowed and the
scan continues; otherwise `None`. -/
def extract_with_selector_fallbacks : List TryResult → Option Str
  | [] => none
  | TryResult.notFound :: rest => extract_with_selector_fallbacks rest
  | TryResult.raised :: rest => extract_with_selector_fallbacks rest
  | TryResult.found s :: rest =>
    if 2 ≤ s.length then some (clean_extracted_text s)
    else extract_with_selector_fallbacks rest

/-- Harvested job record: the fields of the `job_data` dictionary read
by the quality gate, the quality scorer and the deduplicator.  `none`
models an absent key, quality scores are exact rationals. -/
structure Job where
  title : Option Str
  company : Option Str
  location : Option Str
  job_url : Option Str
  posted_date : Option Str
  salary_info : Option Str
  job_insights : List Str
  applicant_count : Option Str
  data_quality_score : ℚ
deriving DecidableEq

/-- `EnhancedLinkedInJobHarvester._calculate_data_quality_score`,
translated with exact rational arithmetic: the incremental counter of
populated core fields, divided by six, plus the salary and applicant
bonuses, capped at one. -/
def calculate_data_quality_score (j : Job) : ℚ :=
  let filled : Nat :=
    (if truthyS j.title then 1 else 0) +
    (if truthyS j.company then 1 else 0) +
    (if truthyS j.location then 1 else 0) +
    (if truthyS j.job_url then 1 else 0) +
    (if truthyS j.posted_date then 1 else 0) +
    (if !j.job_insights.isEmpty then 1 else 0)
  let base_score : ℚ := (filled : ℚ) / 6
  let bonus : ℚ :=
    (if truthyS j.salary_info then (1 : ℚ) / 10 else 0) +
    (if truthyS j.applicant_count then (1 : ℚ) / 20 else 0)
  min 1 (base_score + bonus)

/-- Number of populated core fields, following the spec wording. -/
def populated_core_count (j : Job) : Nat :=
  ([truthyS j.title, truthyS j.company, truthyS j.location,
    truthyS j.job_url, truthyS j.posted_date,
    !j.job_insights.isEmpty].filter id).length

/-- Quality score as the spec describes it: populated core count over
six, plus 0.10 for salary and 0.05 for applicant count, capped at 1. -/
def spec_quality_score (j : Job) : ℚ :=
  min 1 ((populated_core_count j : ℚ) / 6 +
    (if truthyS j.salary_info then (1 : ℚ) / 10 else 0) +
    (if truthyS j.applicant_count then (1 : ℚ) / 20 else 0))

/-- Python substring containment `p in t`. -/
def hasSubstr (p : Str) : Str → Bool
  | [] => p.isEmpty
  | c :: rest => p.isPrefixOf (c :: rest) || hasSubstr p rest

/-- Spam indicator substrings of the quality gate (the first four are
the mojibake emoji literals exactly as they occur in the source). -/
def spam_indicators : List Str :=
  ["ðŸš€".toList, "ðŸ’°".toList,
   "ðŸ”¥".toList, "ðŸ’¯".toList,
   "URGENT".toList, "IMMEDIATE".toList, "HURRY".toList,
   "MAKE MONEY FAST".toList, "WORK FROM HOME GUARANTEED".toList]

/-- `EnhancedLinkedInJobHarvester._validate_job_data_quality` with the
default configuration (title length 3..200, spam detection on).  It
returns the validation verdict together with the record, because the
source mutates `job_data` in place: an invalid truthy company or
location is overwritten with `None` before `True` is returned. -/
def validate_job_data_quality (j : Job) : Bool × Job :=
  match j.title with
  | none => (false, j)
  | some ttl =>
    if ttl.isEmpty then (false, j)
    else
      let t := stripWs ttl
      if t.length < 3 || 200 < t.length then (false, j)
      else
        let tU := upperStr t
        if spam_indicators.any (fun ind => hasSubstr ind tU) then (false, j)
        else
          let j2 : Job :=
            { j with company :=
                match j.company with
                | some c =>
                  if !c.isEmpty &&
                      ((stripWs c).length < 2 || !(stripWs c).any isLetterAZ)
                  then none else some c
                | none => none }
          let j3 : Job :=
            { j2 with location :=
                match j.location with
                | some l =>
                  if !l.isEmpty &&
                      ((stripWs l).length < 2 || !(stripWs l).any isLetterAZ)
                  then none else some l
                | none => none }
          (true, j3)

/-- Inputs of `_extract_comprehensive_job_data` for one job card: the
selector trial outcomes for the three resolver-extracted text fields,
and the values produced by the URL and metadata extraction helpers. -/
structure Card where
  titleTrials : List TryResult
  companyTrials : List TryResult
  locationTrials : List TryResult
  url : Option Str
  postedDate : Option Str
  salary : Option Str
  insights : List Str
  applicant : Option Str
deriving DecidableEq

/-- `EnhancedLinkedInJobHarvester._extract_comprehensive_job_data`:
resolve the text fields, attach metadata and the quality score, and
return the record only when the title is truthy. -/
def extract_comprehensive_job_data (c : Card) : Option Job :=
  let j : Job :=
    { title := extract_with_selector_fallbacks c.titleTrials
      company := extract_with_selector_fallbacks c.companyTrials
      location := extract_with_selector_fallbacks c.locationTrials
      job_url := c.url
      posted_date := c.postedDate
      salary_info := c.salary
      job_insights := c.insights
      applicant_count := c.applicant
      data_quality_score := 0 }
  let j2 : Job := { j with data_quality_score := calculate_data_quality_score j }
  if truthyS j2.title then some j2 else none

/-- One card of `_extract_jobs_from_html`: extraction followed by the
quality gate; the (possibly gate-mutated) record is accepted onto the
result list only when the gate passes. -/
def accept_card (c : Card) : Option Job :=
  match extract_comprehensive_job_data c with
  | none => none
  | some j =>
    let p := validate_job_data_quality j
    if p.1 then some p.2 else none

/-- Records appended by one successfully fetched page. -/
def process_page (cards : List Card) : List Job := cards.filterMap accept_card

/-- Outcome of one iteration of the page loop of `harvest_jobs`: the
page was fetched and parsed (HTTP 200), the request pipeline reported
failure (`_execute_intelligent_request` returned `False`), or the loop
body raised an exception caught by the `except` clause. -/
inductive PageOutcome where
  | fetched : List Card → PageOutcome
  | failed : PageOutcome
  | raised : PageOutcome
deriving DecidableEq

/-- Result of a harvest run: the accumulated records, the failure and
recovery counters, and the pages left unprocessed by an early abort. -/
structure HarvestOut where
  records : List Job
  failedPages : Nat
  recoveries : Nat
  leftover : List PageOutcome
deriving DecidableEq

/-- Page loop of `EnhancedLinkedInJobHarvester.harvest_jobs`: on a
request-path failure the failure counter increments, the recovery
strategy runs once the counter is at least 2, and the loop breaks at 3;
on an exception the counter increments and only the break threshold is
checked; the accumulated records are returned in every case. -/
def harvestGo (failed recov : Nat) (acc : List Job) :
    List PageOutcome → HarvestOut
  | [] => ⟨acc, failed, recov, []⟩
  | PageOutcome.fetched cards :: rest =>
    harvestGo failed recov (acc ++ process_page cards) rest
  | PageOutcome.failed :: rest =>
    let f := failed + 1
    let r := if 2 ≤ f then recov + 1 else recov
    if 3 ≤ f then ⟨acc, f, r, rest⟩ else harvestGo f r acc rest
  | PageOutcome.raised :: rest =>
    let f := failed + 1
    if 3 ≤ f then ⟨acc, f, recov, rest⟩ else harvestGo f recov acc rest

/-- `EnhancedLinkedInJobHarvester.harvest_jobs` over a sequence of page
outcomes. -/
def harvest_jobs (outs : List PageOutcome) : HarvestOut :=
  harvestGo 0 0 [] outs

/-- Value of an optional field under Python `job.get(key, "")`. -/
def optStr (o : Option Str) : Str := o.getD []

/-- Normalized duplicate-detection signature of
`JobDataValidator.remove_duplicates`: the `"title|company|location"`
string built from lower-cased, stripped field values. -/
def sigOf (j : Job) : Str :=
  stripWs (lowerStr (optStr j.title)) ++ ['|'] ++
  stripWs (lowerStr (optStr j.company)) ++ ['|'] ++
  stripWs (lowerStr (optStr j.location))

/-- Worker of `remove_duplicates` carrying the `seen_signatures` set. -/
def remove_duplicates_go (seen : List Str) : List Job → List Job
  | [] => []
  | j :: rest =>
    if seen.contains (sigOf j) then remove_duplicates_go seen rest
    else j :: remove_duplicates_go (sigOf j :: seen) rest

/-- `JobDataValidator.remove_duplicates`. -/
def remove_duplicates (l : List Job) : List Job := remove_duplicates_go [] l

/-- `HumanBehaviorSimulator.calculate_realistic_reading_time` in exact
rational arithmetic. -/
def calculate_realistic_reading_time (content_length : ℤ)
    (reading_speed_wpm : ℚ) : ℚ :=
  let estimated_words : ℚ := (content_length : ℚ) / 5
  let reading_time_minutes : ℚ := estimated_words / reading_speed_wpm
  let reading_time_seconds : ℚ := reading_time_minutes * 60
  max 2 (min 15 reading_time_seconds)

/-- `HumanBehaviorSimulator.generate_human_like_delay`: the random
source is made explicit as the unit sample `unit_random` of
`random.uniform`, so the computation is a deterministic function of its
arguments. -/
def generate_human_like_delay (base_delay variance_factor unit_random : ℚ) : ℚ :=
  let variance_range := base_delay * variance_factor
  let variance := -variance_range + 2 * variance_range * unit_random
  max (1 / 2) (base_delay + variance)

/-- Selector trial that the resolver accepts. -/
def GoodTrial (x : TryResult) : Prop := ∃ t, x = TryResult.found t ∧ 2 ≤ t.length

/-- The record occurs in the list and is the record at the first
position where its signature occurs. -/
def FirstOcc (l : List Job) (j : Job) : Prop :=
  ∃ l1 l2, l = l1 ++ j :: l2 ∧ ∀ x ∈ l1, sigOf x ≠ sigOf j

/-- Page outcome counted by the failure counter. -/
def isPageFailure : PageOutcome → Bool
  | PageOutcome.failed => true
  | PageOutcome.raised => true
  | _ => false

/-- Page outcome that fails through the request path (not an
exception). -/
def isRequestFailure : PageOutcome → Bool
  | PageOutcome.failed => true
  | _ => false

/-- Pointwise comparison of populated core fields: every core field
populated in `j1` is populated in `j2`. -/
def CoreFieldsLe (j1 j2 : Job) : Prop :=
  (truthyS j1.title = true → truthyS j2.title = true) ∧
  (truthyS j1.company = true → truthyS j2.company = true) ∧
  (truthyS j1.location = true → truthyS j2.location = true) ∧
  (truthyS j1.job_url = true → truthyS j2.job_url = true) ∧
  (truthyS j1.posted_date = true → truthyS j2.posted_date = true) ∧
  (j1.job_insights.isEmpty = false → j2.job_insights.isEmpty = false)

/-- Records contributed by the fetched pages of an outcome list, in
order. -/
def collect_records (l : List PageOutcome) : List Job :=
  l.foldr
    (fun o acc =>
      match o with
      | PageOutcome.fetched cards => process_page cards ++ acc
      | _ => acc) []

/-- Well-formed sample job card used by concrete counterexamples. -/
def sampleCard : Card :=
  { titleTrials := [TryResult.found "Software Engineer".toList]
    companyTrials := [TryResult.found "Acme Corp".toList]
    locationTrials := [TryResult.found "Boston, MA".toList]
    url := some "https://www.linkedin.com/jobs/view/123".toList
    postedDate := none
    salary := none
    insights := []
    applicant := none }

/-- Job card whose title text contains no letter. -/
def numericCard : Card :=
  { titleTrials := [TryResult.found "12345".toList]
    companyTrials := []
    locationTrials := []
    url := none
    postedDate := none
    salary := none
    insights := []
    applicant := none }

/-- Record with a one-character company name, used to exhibit the
quality gate's in-place mutation. -/
def shortCompanyJob : Job :=
  { title := some "Engineer".toList
    company := some "A".toList
    location := none
    job_url := none
    posted_date := none
    salary_info := none
    job_insights := []
    applicant_count := none
    data_quality_score := 0 }

/-- Fields of the record extracted from `sampleCard`, before the
quality score is attached. -/
def jSampleBase : Job :=
  { title := some "Software Engineer".toList
    company := some "Acme Corp".toList
    location := some "Boston, MA".toList
    job_url := some "https://www.linkedin.com/jobs/view/123".toList
    posted_date := none
    salary_info := none
    job_insights := []
    applicant_count := none
    data_quality_score := 0 }

/-- Record accepted from `sampleCard`: the three text fields resolve
to their cleaned texts and the quality score is attached. -/
def jSample : Job :=
  { jSampleBase with
    data_quality_score := calculate_data_quality_score jSampleBase }

/-- Record populating a superset of `shortCompanyJob`'s core fields. -/
def richerJob : Job :=
  { title := some "Engineer".toList
    company := some "A".toList
    location := some "Boston, MA".toList
    job_url := some "https://www.linkedin.com/jobs/view/9".toList
    posted_date := none
    salary_info := none
    job_insights := []
    applicant_count := none
    data_quality_score := 0 }

theorem not_goodTrial_notFound : ¬ GoodTrial TryResult.notFound := by
  rintro ⟨t, h, -⟩
  cases h

theorem not_goodTrial_raised : ¬ GoodTrial TryResult.raised := by
  rintro ⟨t, h, -⟩
  cases h

theorem not_goodTrial_short {s : Str} (h : ¬ 2 ≤ s.length) :
    ¬ GoodTrial (TryResult.found s) := by
  rintro ⟨t, ht, hlen⟩
  cases ht
  exact h hlen

/-- Characterization step for a leading trial the resolver skips. -/
theorem resolve_skip_decomp {x : TryResult} {trials : List TryResult}
    (hx : ¬ GoodTrial x) (s : Str)
    (h : ∃ pre t post, x :: trials = pre ++ TryResult.found t :: post ∧
        2 ≤ t.length ∧ s = clean_extracted_text t ∧ ∀ y ∈ pre, ¬ GoodTrial y) :
    ∃ pre t post, trials = pre ++ TryResult.found t :: post ∧
        2 ≤ t.length ∧ s = clean_extracted_text t ∧ ∀ y ∈ pre, ¬ GoodTrial y := by
  obtain ⟨pre, t, post, hdec, hlen, hs, hpre⟩ := h
  cases pre with
  | nil =>
    simp at hdec
    exact absurd ⟨t, hdec.1, hlen⟩ hx
  | cons p pre =>
    simp at hdec
    exact ⟨pre, t, post, hdec.2, hlen, hs, fun y hy => hpre y (by simp [hy])⟩

/-- Full behaviour of the selector-fallback resolver: it returns the
cleaned text of the first trial that found text of stripped length at
least two, skipping failed and exception-raising trials alike, and
`none` exactly when no trial is good. -/
theorem resolve_characterization : ∀ trials : List TryResult,
    (∀ s, extract_with_selector_fallbacks trials = some s ↔
      ∃ pre t post, trials = pre ++ TryResult.found t :: post ∧ 2 ≤ t.length ∧
        s = clean_extracted_text t ∧ ∀ x ∈ pre, ¬ GoodTrial x) ∧
    (extract_with_selector_fallbacks trials = none ↔
      ∀ x ∈ trials, ¬ GoodTrial x) := by
  intro trials
  induction trials with
  | nil =>
    constructor
    · intro s
      constructor
      · intro h
        cases h
      · rintro ⟨pre, t, post, hdec, -⟩
        exact absurd hdec (by simp)
    · simp [extract_with_selector_fallbacks]
  | cons x rest ih =>
    have skipCase : ∀ (hsk : extract_with_selector_fallbacks (x :: rest) =
        extract_with_selector_fallbacks rest) (hx : ¬ GoodTrial x),
        (∀ s, extract_with_selector_fallbacks (x :: rest) = some s ↔
          ∃ pre t post, x :: rest = pre ++ TryResult.found t :: post ∧
            2 ≤ t.length ∧ s = clean_extracted_text t ∧
            ∀ y ∈ pre, ¬ GoodTrial y) ∧
        (extract_with_selector_fallbacks (x :: rest) = none ↔
          ∀ y ∈ x :: rest, ¬ GoodTrial y) := by
      intro hsk hx
      constructor
      · intro s
        rw [hsk, (ih.1 s)]
        constructor
        · rintro ⟨pre, t, post, hdec, hlen, hs, hpre⟩
          refine ⟨x :: pre, t, post, by simp [hdec], hlen, hs, ?_⟩
          intro y hy
          rcases List.mem_cons.mp hy with h | h
          · exact h ▸ hx
          · exact hpre y h
        · exact resolve_skip_decomp hx s
      · rw [hsk, ih.2]
        constructor
        · intro h y hy
          rcases List.mem_cons.mp hy with hh | hh
          · exact hh ▸ hx
          · exact h y hh
        · intro h y hy
          exact h y (by simp [hy])
    cases x with
    | notFound =>
      exact skipCase (by simp [extract_with_selector_fallbacks]) not_goodTrial_notFound
    | raised =>
      exact skipCase (by simp [extract_with_selector_fallbacks]) not_goodTrial_raised
    | found s0 =>
      by_cases hlen : 2 ≤ s0.length
      · have hres : extract_with_selector_fallbacks (TryResult.found s0 :: rest) =
            some (clean_extracted_text s0) := by
          simp [extract_with_selector_fallbacks, hlen]
        constructor
        · intro s
          rw [hres]
          constructor
          · intro h
            refine ⟨[], s0, rest, by simp, hlen, ?_, by simp⟩
            cases h
            rfl
          · rintro ⟨pre, t, post, hdec, hlen2, hs, hpre⟩
            cases pre with
            | nil =>
              simp at hdec
              rw [hs, hdec.1]
            | cons p pre =>
              simp at hdec
              exact absurd ⟨s0, hdec.1.symm, hlen⟩ (hpre p (by simp))
        · rw [hres]
          constructor
          · intro h
            cases h
          · intro h
            exact absurd ⟨s0, rfl, hlen⟩ (h (TryResult.found s0) (by simp))
      · exact skipCase (by simp [extract_with_selector_fallbacks, hlen])
          (not_goodTrial_short hlen)

theorem score_eq_spec (j : Job) :
    calculate_data_quality_score j = spec_quality_score j := by
  unfold calculate_data_quality_score spec_quality_score populated_core_count
  cases h1 : truthyS j.title <;> cases h2 : truthyS j.company <;>
    cases h3 : truthyS j.location <;> cases h4 : truthyS j.job_url <;>
    cases h5 : truthyS j.posted_date <;> cases h6 : j.job_insights.isEmpty <;>
    simp [h1, h2, h3, h4, h5, h6, List.filter] <;>
    (congr 1; push_cast; ring)

theorem indicator_le {b1 b2 : Bool} (h : b1 = true → b2 = true) :
    (if b1 then (1 : Nat) else 0) ≤ (if b2 then 1 else 0) := by
  cases b1 with
  | false => simp
  | true => simp [h rfl]

theorem score_mono {j1 j2 : Job} (hcore : CoreFieldsLe j1 j2)
    (hsal : truthyS j1.salary_info = truthyS j2.salary_info)
    (happ : truthyS j1.applicant_count = truthyS j2.applicant_count) :
    calculate_data_quality_score j1 ≤ calculate_data_quality_score j2 := by
  obtain ⟨h1, h2, h3, h4, h5, h6⟩ := hcore
  unfold calculate_data_quality_score
  apply min_le_min (le_refl (1 : ℚ))
  have hfill : ((if truthyS j1.title then (1 : Nat) else 0) +
      (if truthyS j1.company then 1 else 0) +
      (if truthyS j1.location then 1 else 0) +
      (if truthyS j1.job_url then 1 else 0) +
      (if truthyS j1.posted_date then 1 else 0) +
      (if !j1.job_insights.isEmpty then 1 else 0)) ≤
      ((if truthyS j2.title then (1 : Nat) else 0) +
      (if truthyS j2.company then 1 else 0) +
      (if truthyS j2.location then 1 else 0) +
      (if truthyS j2.job_url then 1 else 0) +
      (if truthyS j2.posted_date then 1 else 0) +
      (if !j2.job_insights.isEmpty then 1 else 0)) := by
    have h6' : (!j1.job_insights.isEmpty) = true → (!j2.job_insights.isEmpty) = true := by
      intro h
      have h' : j1.job_insights.isEmpty = false := by simpa using h
      simp [h6 h']
    exact Nat.add_le_add (Nat.add_le_add (Nat.add_le_add (Nat.add_le_add
      (Nat.add_le_add (indicator_le h1) (indicator_le h2)) (indicator_le h3))
      (indicator_le h4)) (indicator_le h5)) (indicator_le h6')
  have hbase : ((((if truthyS j1.title then (1 : Nat) else 0) +
      (if truthyS j1.company then 1 else 0) +
      (if truthyS j1.location then 1 else 0) +
      (if truthyS j1.job_url then 1 else 0) +
      (if truthyS j1.posted_date then 1 else 0) +
      (if !j1.job_insights.isEmpty then 1 else 0) : Nat) : ℚ) / 6) ≤
      ((((if truthyS j2.title then (1 : Nat) else 0) +
      (if truthyS j2.company then 1 else 0) +
      (if truthyS j2.location then 1 else 0) +
      (if truthyS j2.job_url then 1 else 0) +
      (if truthyS j2.posted_date then 1 else 0) +
      (if !j2.job_insights.isEmpty then 1 else 0) : Nat) : ℚ) / 6) := by
    apply div_le_div_of_nonneg_right ?_ (by norm_num)
    exact_mod_cast hfill
  rw [hsal, happ]
  exact add_le_add_right hbase _

theorem score_nonneg (j : Job) : 0 ≤ calculate_data_quality_score j := by
  unfold calculate_data_quality_score
  apply le_min (by norm_num)
  have hb : (0 : ℚ) ≤ (if truthyS j.salary_info then (1 : ℚ) / 10 else 0) +
      (if truthyS j.applicant_count then (1 : ℚ) / 20 else 0) := by
    apply add_nonneg <;> split <;> norm_num
  apply add_nonneg ?_ hb
  apply div_nonneg ?_ (by norm_num)
  positivity

theorem score_le_one (j : Job) : calculate_data_quality_score j ≤ 1 := by
  unfold calculate_data_quality_score
  exact min_le_left _ _

theorem delay_ge_floor (base_delay variance_factor unit_random : ℚ) :
    1 / 2 ≤ generate_human_like_delay base_delay variance_factor unit_random := by
  unfold generate_human_like_delay
  exact le_max_left _ _

theorem reading_time_bounds (content_length : ℤ) (wpm : ℚ) :
    2 ≤ calculate_realistic_reading_time content_length wpm ∧
    calculate_realistic_reading_time content_length wpm ≤ 15 := by
  unfold calculate_realistic_reading_time
  refine ⟨le_max_left _ _, ?_⟩
  exact max_le (by norm_num) (min_le_left _ _)

theorem remove_duplicates_go_sublist :
    ∀ (l : List Job) (seen : List Str), (remove_duplicates_go seen l).Sublist l := by
  intro l
  induction l with
  | nil => intro seen; simp [remove_duplicates_go]
  | cons j rest ih =>
    intro seen
    by_cases h : seen.contains (sigOf j)
    · simp only [remove_duplicates_go, if_pos h]
      exact (ih seen).trans (List.sublist_cons_self j rest)
    · simp only [remove_duplicates_go, if_neg h]
      exact (ih (sigOf j :: seen)).cons₂ j

theorem remove_duplicates_go_firstocc :
    ∀ (l : List Job) (seen : List Str) (j : Job),
      j ∈ remove_duplicates_go seen l →
      ¬ seen.contains (sigOf j) = true ∧ FirstOcc l j := by
  intro l
  induction l with
  | nil => intro seen j h; simp [remove_duplicates_go] at h
  | cons a rest ih =>
    intro seen j hmem
    by_cases h : seen.contains (sigOf a) = true
    · rw [remove_duplicates_go, if_pos h] at hmem
      obtain ⟨hns, l1, l2, hdec, hne⟩ := ih seen j hmem
      refine ⟨hns, a :: l1, l2, by simp [hdec], ?_⟩
      intro x hx
      rcases List.mem_cons.mp hx with hh | hh
      · subst hh
        intro hsig
        rw [hsig] at h
        exact hns h
      · exact hne x hh
    · rw [remove_duplicates_go, if_neg h] at hmem
      rcases List.mem_cons.mp hmem with hh | hh
      · subst hh
        exact ⟨by simpa using h, [], rest, rfl, by simp⟩
      · obtain ⟨hns, l1, l2, hdec, hne⟩ := ih (sigOf a :: seen) j hh
        have hja : sigOf j ≠ sigOf a := by
          intro hs
          apply hns
          simp [List.contains, hs]
        refine ⟨?_, a :: l1, l2, by simp [hdec], ?_⟩
        · intro hc
          apply hns
          simp [List.contains] at hc ⊢
          exact Or.inr hc
        · intro x hx
          rcases List.mem_cons.mp hx with hh2 | hh2
          · subst hh2
            exact fun hs => hja hs.symm
          · exact hne x hh2

theorem remove_duplicates_go_pairwise :
    ∀ (l : List Job) (seen : List Str),
      (remove_duplicates_go seen l).Pairwise (fun a b => sigOf a ≠ sigOf b) := by
  intro l
  induction l with
  | nil => intro seen; simp [remove_duplicates_go]
  | cons j rest ih =>
    intro seen
    by_cases h : seen.contains (sigOf j) = true
    · rw [remove_duplicates_go, if_pos h]
      exact ih seen
    · rw [remove_duplicates_go, if_neg h]
      refine List.Pairwise.cons ?_ (ih (sigOf j :: seen))
      intro b hb
      obtain ⟨hns, -⟩ := remove_duplicates_go_firstocc rest (sigOf j :: seen) b hb
      intro hsig
      apply hns
      simp [List.contains, hsig]

/-- A record that passes the quality gate has a truthy title whose
stripped length lies within the configured bounds. -/
theorem gate_true_title {j0 j : Job}
    (h : validate_job_data_quality j0 = (true, j)) :
    ∃ s, j.title = some s ∧ s ≠ [] ∧
      3 ≤ (stripWs s).length ∧ (stripWs s).length ≤ 200 := by
  cases ht : j0.title with
  | none =>
    rw [validate_job_data_quality, ht] at h
    simp at h
  | some ttl =>
    by_cases he : ttl.isEmpty = true
    · rw [validate_job_data_quality, ht] at h
      simp [he] at h
    · by_cases hlen : (stripWs ttl).length < 3 ∨ 200 < (stripWs ttl).length
      · rw [validate_job_data_quality, ht] at h
        simp [he, hlen] at h
      · by_cases hspam :
          ∃ x ∈ spam_indicators, hasSubstr x (upperStr (stripWs ttl)) = true
        · rw [validate_job_data_quality, ht] at h
          simp [he, hlen, hspam] at h
        · rw [validate_job_data_quality, ht] at h
          simp [he, hlen, hspam, Prod.ext_iff] at h
          have hj : j.title = some ttl := by
            rw [← h]
          push_neg at hlen
          refine ⟨ttl, hj, ?_, hlen.1, hlen.2⟩
          intro hnil
          exact he (by simp [hnil])

/-- Tautological residue of the gate's company and location update. -/
theorem gate_or_helper (v : Str) :
    (¬v = [] → 2 ≤ (stripWs v).length ∧ ∃ x ∈ stripWs v, isLetterAZ x = true) ∨
    (¬v = [] ∧ (2 ≤ (stripWs v).length → ∀ x ∈ stripWs v, isLetterAZ x = false)) := by
  by_cases hv : v = []
  · exact Or.inl (fun h => absurd hv h)
  · by_cases h2 : 2 ≤ (stripWs v).length
    · by_cases hex : ∃ x ∈ stripWs v, isLetterAZ x = true
      · exact Or.inl (fun _ => ⟨h2, hex⟩)
      · push_neg at hex
        exact Or.inr ⟨hv, fun _ x hx => Bool.eq_false_iff.mpr (hex x hx)⟩
    · exact Or.inr ⟨hv, fun h => absurd h h2⟩

/-- The quality gate never changes the title, URL, date, salary,
insights, applicant count or score of a record, and changes company and
location only by overwriting them with `none`. -/
theorem gate_frame (j : Job) :
    (validate_job_data_quality j).2.title = j.title ∧
    (validate_job_data_quality j).2.job_url = j.job_url ∧
    (validate_job_data_quality j).2.posted_date = j.posted_date ∧
    (validate_job_data_quality j).2.salary_info = j.salary_info ∧
    (validate_job_data_quality j).2.job_insights = j.job_insights ∧
    (validate_job_data_quality j).2.applicant_count = j.applicant_count ∧
    (validate_job_data_quality j).2.data_quality_score = j.data_quality_score ∧
    ((validate_job_data_quality j).2.company = j.company ∨
      (validate_job_data_quality j).2.company = none) ∧
    ((validate_job_data_quality j).2.location = j.location ∨
      (validate_job_data_quality j).2.location = none) := by
  cases ht : j.title with
  | none =>
    rw [validate_job_data_quality, ht]
    simp [ht]
  | some ttl =>
    by_cases he : ttl.isEmpty = true
    · rw [validate_job_data_quality, ht]
      simp [he, ht]
    · by_cases hlen : (stripWs ttl).length < 3 ∨ 200 < (stripWs ttl).length
      · rw [validate_job_data_quality, ht]
        simp [he, hlen, ht]
      · by_cases hspam :
          ∃ x ∈ spam_indicators, hasSubstr x (upperStr (stripWs ttl)) = true
        · rw [validate_job_data_quality, ht]
          simp [he, hlen, hspam, ht]
        · cases hc : j.company <;> cases hl : j.location <;>
            rw [validate_job_data_quality, ht] <;>
            simp [he, hlen, hspam, ht, hc, hl] <;>
            first
              | exact gate_or_helper _
              | exact ⟨gate_or_helper _, gate_or_helper _⟩

/-- An accepted card comes from some record that passed the gate. -/
theorem accept_card_gate {c : Card} {j : Job} (h : accept_card c = some j) :
    ∃ j0, validate_job_data_quality j0 = (true, j) := by
  unfold accept_card at h
  cases he : extract_comprehensive_job_data c with
  | none =>
    rw [he] at h
    simp at h
  | some j0 =>
    rw [he] at h
    by_cases hv : (validate_job_data_quality j0).1 = true
    · simp only [hv, if_true] at h
      refine ⟨j0, ?_⟩
      have hp : validate_job_data_quality j0 =
          ((validate_job_data_quality j0).1, (validate_job_data_quality j0).2) := rfl
      rw [hp, hv]
      simp at h
      rw [h]
    · simp [hv] at h

/-- Every record in the harvest accumulator came either from the
initial accumulator or from a fetched page of the outcome list. -/
theorem mem_harvestGo_records :
    ∀ (outs : List PageOutcome) (f r : Nat) (acc : List Job) (j : Job),
      j ∈ (harvestGo f r acc outs).records →
      j ∈ acc ∨ ∃ cards, PageOutcome.fetched cards ∈ outs ∧ j ∈ process_page cards := by
  intro outs
  induction outs with
  | nil =>
    intro f r acc j h
    simp [harvestGo] at h
    exact Or.inl h
  | cons o rest ih =>
    intro f r acc j h
    cases o with
    | fetched cards =>
      have e : harvestGo f r acc (PageOutcome.fetched cards :: rest) =
          harvestGo f r (acc ++ process_page cards) rest := rfl
      rw [e] at h
      rcases ih f r (acc ++ process_page cards) j h with hacc | ⟨cs, hmem, hj⟩
      · rcases List.mem_append.mp hacc with h1 | h1
        · exact Or.inl h1
        · exact Or.inr ⟨cards, by simp, h1⟩
      · exact Or.inr ⟨cs, by simp [hmem], hj⟩
    | failed =>
      by_cases h3 : 3 ≤ f + 1
      · simp only [harvestGo, h3, if_true] at h
        exact Or.inl h
      · simp only [harvestGo, h3, if_false] at h
        rcases ih (f + 1) (if 2 ≤ f + 1 then r + 1 else r) acc j h with h1 | ⟨cs, hm, hj⟩
        · exact Or.inl h1
        · exact Or.inr ⟨cs, by simp [hm], hj⟩
    | raised =>
      by_cases h3 : 3 ≤ f + 1
      · simp only [harvestGo, h3, if_true] at h
        exact Or.inl h
      · simp only [harvestGo, h3, if_false] at h
        rcases ih (f + 1) r acc j h with h1 | ⟨cs, hm, hj⟩
        · exact Or.inl h1
        · exact Or.inr ⟨cs, by simp [hm], hj⟩

theorem countPage_fetched (cards : List Card) (p : List PageOutcome) :
    (PageOutcome.fetched cards :: p).countP isPageFailure = p.countP isPageFailure := by
  simp [List.countP_cons, isPageFailure]

theorem countPage_failed (p : List PageOutcome) :
    (PageOutcome.failed :: p).countP isPageFailure = p.countP isPageFailure + 1 := by
  simp [List.countP_cons, isPageFailure]

theorem countPage_raised (p : List PageOutcome) :
    (PageOutcome.raised :: p).countP isPageFailure = p.countP isPageFailure + 1 := by
  simp [List.countP_cons, isPageFailure]

theorem countReq_fetched (cards : List Card) (p : List PageOutcome) :
    (PageOutcome.fetched cards :: p).countP isRequestFailure = p.countP isRequestFailure := by
  simp [List.countP_cons, isRequestFailure]

theorem countReq_failed (p : List PageOutcome) :
    (PageOutcome.failed :: p).countP isRequestFailure = p.countP isRequestFailure + 1 := by
  simp [List.countP_cons, isRequestFailure]

theorem countReq_raised (p : List PageOutcome) :
    (PageOutcome.raised :: p).countP isRequestFailure = p.countP isRequestFailure := by
  simp [List.countP_cons, isRequestFailure]

theorem collect_fetched (cards : List Card) (p : List PageOutcome) :
    collect_records (PageOutcome.fetched cards :: p) =
      process_page cards ++ collect_records p := rfl

theorem collect_failed (p : List PageOutcome) :
    collect_records (PageOutcome.failed :: p) = collect_records p := rfl

theorem collect_raised (p : List PageOutcome) :
    collect_records (PageOutcome.raised :: p) = collect_records p := rfl

/-- Full accounting of the page loop, generalized over the loop
state: the processed prefix, the returned records, the failure
counter arithmetic, the abort thresholds, and the recovery counter
behaviour. -/
theorem harvestGo_spec :
    ∀ (outs : List PageOutcome) (f r : Nat) (acc : List Job), f ≤ 2 →
      ∃ p, outs = p ++ (harvestGo f r acc outs).leftover ∧
        (harvestGo f r acc outs).records = acc ++ collect_records p ∧
        (harvestGo f r acc outs).failedPages = f + p.countP isPageFailure ∧
        (harvestGo f r acc outs).failedPages ≤ 3 ∧
        ((harvestGo f r acc outs).leftover ≠ [] →
          (harvestGo f r acc outs).failedPages = 3) ∧
        r ≤ (harvestGo f r acc outs).recoveries ∧
        (2 ≤ f + p.countP isRequestFailure ∧ 1 ≤ p.countP isRequestFailure →
          r + 1 ≤ (harvestGo f r acc outs).recoveries) ∧
        (p.countP isRequestFailure = 0 →
          (harvestGo f r acc outs).recoveries = r) := by
  intro outs
  induction outs with
  | nil =>
    intro f r acc hf
    refine ⟨[], by simp [harvestGo], by simp [harvestGo, collect_records],
      by simp [harvestGo], by simp [harvestGo]; omega, by simp [harvestGo],
      by simp [harvestGo], by simp [harvestGo], by simp [harvestGo]⟩
  | cons o rest ih =>
    intro f r acc hf
    cases o with
    | fetched cards =>
      have e : harvestGo f r acc (PageOutcome.fetched cards :: rest) =
          harvestGo f r (acc ++ process_page cards) rest := rfl
      obtain ⟨p, h1, h2, h3, h4, h5, h6, h7, h8⟩ :=
        ih f r (acc ++ process_page cards) hf
      refine ⟨PageOutcome.fetched cards :: p, ?_, ?_, ?_, ?_, ?_, ?_, ?_, ?_⟩
      · rw [e, List.cons_append]
        exact congrArg (List.cons (PageOutcome.fetched cards)) h1
      · rw [e, h2, collect_fetched, List.append_assoc]
      · rw [e, h3, countPage_fetched]
      · rw [e]; exact h4
      · rw [e]; exact h5
      · rw [e]; exact h6
      · rw [e, countReq_fetched]; exact h7
      · rw [e, countReq_fetched]; exact h8
    | failed =>
      have e0 : harvestGo f r acc (PageOutcome.failed :: rest) =
          (if 3 ≤ f + 1 then
            (⟨acc, f + 1, if 2 ≤ f + 1 then r + 1 else r, rest⟩ : HarvestOut)
          else harvestGo (f + 1) (if 2 ≤ f + 1 then r + 1 else r) acc rest) := rfl
      by_cases h3c : 3 ≤ f + 1
      · have e : harvestGo f r acc (PageOutcome.failed :: rest) =
            ⟨acc, f + 1, r + 1, rest⟩ := by
          rw [e0, if_pos h3c, if_pos (by omega)]
        have hcp : List.countP isPageFailure [PageOutcome.failed] = 1 := rfl
        have hcr : List.countP isRequestFailure [PageOutcome.failed] = 1 := rfl
        refine ⟨[PageOutcome.failed], ?_, ?_, ?_, ?_, ?_, ?_, ?_, ?_⟩ <;> simp only [e]
        · rfl
        · rw [show collect_records [PageOutcome.failed] = [] from rfl,
            List.append_nil]
        · rw [hcp]
        · show f + 1 ≤ 3
          omega
        · intro hlo
          show f + 1 = 3
          omega
        · show r ≤ r + 1
          omega
        · intro hc
          show r + 1 ≤ r + 1
          omega
        · intro hc
          rw [hcr] at hc
          omega
      · have e : harvestGo f r acc (PageOutcome.failed :: rest) =
            harvestGo (f + 1) (if 2 ≤ f + 1 then r + 1 else r) acc rest := by
          rw [e0, if_neg h3c]
        have hf' : f + 1 ≤ 2 := by omega
        obtain ⟨p, h1, h2, h3, h4, h5, h6, h7, h8⟩ :=
          ih (f + 1) (if 2 ≤ f + 1 then r + 1 else r) acc hf'
        refine ⟨PageOutcome.failed :: p, ?_, ?_, ?_, ?_, ?_, ?_, ?_, ?_⟩
        · rw [e, List.cons_append]
          exact congrArg (List.cons PageOutcome.failed) h1
        · rw [e, h2, collect_failed]
        · rw [e, h3, countPage_failed]; omega
        · rw [e]; exact h4
        · rw [e]; exact h5
        · rw [e]
          refine le_trans ?_ h6
          split <;> omega
        · rw [e]
          intro hc
          rw [countReq_failed] at hc
          by_cases h21 : 2 ≤ f + 1
          · have hle : r + 1 ≤ (if 2 ≤ f + 1 then r + 1 else r) := by
              simp [h21]
            exact le_trans hle h6
          · have h7' := h7 ⟨by omega, by omega⟩
            rw [if_neg h21] at h7'
            rw [if_neg h21]
            exact h7'
        · rw [e]
          intro hc
          rw [countReq_failed] at hc
          omega
    | raised =>
      have e0 : harvestGo f r acc (PageOutcome.raised :: rest) =
          (if 3 ≤ f + 1 then (⟨acc, f + 1, r, rest⟩ : HarvestOut)
          else harvestGo (f + 1) r acc rest) := rfl
      by_cases h3c : 3 ≤ f + 1
      · have e : harvestGo f r acc (PageOutcome.raised :: rest) =
            ⟨acc, f + 1, r, rest⟩ := by
          rw [e0, if_pos h3c]
        have hcp : List.countP isPageFailure [PageOutcome.raised] = 1 := rfl
        have hcr : List.countP isRequestFailure [PageOutcome.raised] = 0 := rfl
        refine ⟨[PageOutcome.raised], ?_, ?_, ?_, ?_, ?_, ?_, ?_, ?_⟩ <;> simp only [e]
        · rfl
        · rw [show collect_records [PageOutcome.raised] = [] from rfl,
            List.append_nil]
        · rw [hcp]
        · show f + 1 ≤ 3
          omega
        · intro hlo
          show f + 1 = 3
          omega
        · show r ≤ r
          omega
        · intro hc
          rw [hcr] at hc
          omega
        · intro hc
          trivial
      · have e : harvestGo f r acc (PageOutcome.raised :: rest) =
            harvestGo (f + 1) r acc rest := by
          rw [e0, if_neg h3c]
        have hf' : f + 1 ≤ 2 := by omega
        obtain ⟨p, h1, h2, h3, h4, h5, h6, h7, h8⟩ := ih (f + 1) r acc hf'
        refine ⟨PageOutcome.raised :: p, ?_, ?_, ?_, ?_, ?_, ?_, ?_, ?_⟩
        · rw [e, List.cons_append]
          exact congrArg (List.cons PageOutcome.raised) h1
        · rw [e, h2, collect_raised]
        · rw [e, h3, countPage_raised]; omega
        · rw [e]; exact h4
        · rw [e]; exact h5
        · rw [e]; exact h6
        · rw [e]
          intro hc
          rw [countReq_raised] at hc
          exact h7 ⟨by omega, hc.2⟩
        · rw [e]
          intro hc
          rw [countReq_raised] at hc
          exact h8 hc

/-- C3: for every node and ordered selector list, the fallback resolver
returns the cleaned text of the first pattern whose match is non-empty
with trimmed length at least 2 (never a merge of later matches);
exceptions raised by a pattern are swallowed and resolution proceeds to
the next pattern; if every pattern fails the resolver returns `none`. -/
theorem c3_selector_fallback_resolution : ∀ trials : List TryResult,
    (∀ s, extract_with_selector_fallbacks trials = some s ↔
      ∃ pre t post, trials = pre ++ TryResult.found t :: post ∧ 2 ≤ t.length ∧
        s = clean_extracted_text t ∧ ∀ x ∈ pre, ¬ GoodTrial x) ∧
    (extract_with_selector_fallbacks trials = none ↔
      ∀ x ∈ trials, ¬ GoodTrial x) :=
  resolve_characterization

/-- Witness for C3 at a concrete trial list: an exception followed by
two matches resolves to the first match's cleaned text. -/
theorem c3_selector_fallback_resolution_witness :
    extract_with_selector_fallbacks
      [TryResult.raised, TryResult.found "ab".toList,
       TryResult.found "xyz".toList] =
      some (clean_extracted_text "ab".toList) := by
  apply ((c3_selector_fallback_resolution
    [TryResult.raised, TryResult.found "ab".toList,
     TryResult.found "xyz".toList]).1 _).mpr
  refine ⟨[TryResult.raised], "ab".toList, [TryResult.found "xyz".toList],
    rfl, by decide, rfl, ?_⟩
  intro x hx
  have hx' : x = TryResult.raised := by simpa using hx
  rw [hx']
  exact not_goodTrial_raised

/-- C6: the data quality score equals the count of populated core
fields among title, company, location, url, date, insights divided by
6, plus 0.10 for salary and 0.05 for applicant count, capped at 1.0. -/
theorem c6_quality_score_formula :
    ∀ j : Job, calculate_data_quality_score j = spec_quality_score j :=
  score_eq_spec

/-- C7: the quality score is monotone under populating a superset of
core fields (all else equal), and always lies in [0, 1]. -/
theorem c7_score_monotone_and_bounded :
    (∀ j1 j2 : Job, CoreFieldsLe j1 j2 →
      truthyS j1.salary_info = truthyS j2.salary_info →
      truthyS j1.applicant_count = truthyS j2.applicant_count →
      calculate_data_quality_score j1 ≤ calculate_data_quality_score j2) ∧
    (∀ j : Job, 0 ≤ calculate_data_quality_score j ∧
      calculate_data_quality_score j ≤ 1) :=
  ⟨fun _ _ hc hs ha => score_mono hc hs ha,
   fun j => ⟨score_nonneg j, score_le_one j⟩⟩

/-- Witness for C7 at two concrete records where the second populates
strictly more core fields. -/
theorem c7_score_monotone_witness :
    calculate_data_quality_score shortCompanyJob ≤
      calculate_data_quality_score richerJob :=
  c7_score_monotone_and_bounded.1 shortCompanyJob richerJob
    ⟨by decide, by decide, by decide, by decide, by decide, by decide⟩
    (by decide) (by decide)

/-- C8: with the random source made explicit, the behaviour-simulator
delays are deterministic functions of their inputs; the human-like
delay is at least the 0.5 second floor for every base delay, variance
factor and random sample, and the reading time is clamped to [2, 15]
seconds for every content length (at the default 200 wpm). -/
theorem c8_behavior_delays :
    (∀ base_delay variance_factor unit_random : ℚ,
      1 / 2 ≤ generate_human_like_delay base_delay variance_factor unit_random) ∧
    (∀ content_length : ℤ,
      2 ≤ calculate_realistic_reading_time content_length 200 ∧
      calculate_realistic_reading_time content_length 200 ≤ 15) :=
  ⟨delay_ge_floor, fun n => reading_time_bounds n 200⟩

/-- C10: `remove_duplicates` returns a subsequence of its input in
which every kept record is exactly the record at the first position
where its signature occurs; records are returned unmodified. -/
theorem c10_remove_duplicates_subsequence :
    ∀ l : List Job, (remove_duplicates l).Sublist l ∧
      ∀ j ∈ remove_duplicates l, FirstOcc l j :=
  fun l => ⟨remove_duplicates_go_sublist l [],
    fun j hj => (remove_duplicates_go_firstocc l [] j hj).2⟩

/-- Witness for C10 at a concrete singleton list. -/
theorem c10_remove_duplicates_witness : FirstOcc [shortCompanyJob] shortCompanyJob :=
  (c10_remove_duplicates_subsequence [shortCompanyJob]).2 shortCompanyJob
    (by decide)

/-- C1 (amended): the deduplicator's output contains no two records
with equal normalized signatures and keeps the first-seen record of
each signature; but `harvest_jobs` itself accumulates accepted records
without applying it (see the counterexample). -/
theorem c1_dedup_signature_unique :
    ∀ l : List Job,
      (remove_duplicates l).Pairwise (fun a b => sigOf a ≠ sigOf b) ∧
      ∀ j ∈ remove_duplicates l, FirstOcc l j :=
  fun l => ⟨remove_duplicates_go_pairwise l [],
    fun j hj => (remove_duplicates_go_firstocc l [] j hj).2⟩

/-- Witness for C1 (amended) at a concrete duplicate list. -/
theorem c1_dedup_signature_unique_witness :
    FirstOcc [shortCompanyJob, shortCompanyJob] shortCompanyJob :=
  (c1_dedup_signature_unique [shortCompanyJob, shortCompanyJob]).2
    shortCompanyJob (by decide)

/-- Counterexample to C1 as stated: a harvest over one fetched page
with two identical cards returns two records with equal normalized
signatures. -/
theorem c1_harvest_contains_duplicates :
    (harvest_jobs [PageOutcome.fetched [sampleCard, sampleCard]]).records.length = 2 ∧
    ¬ (harvest_jobs [PageOutcome.fetched [sampleCard, sampleCard]]).records.Pairwise
        (fun a b => sigOf a ≠ sigOf b) := by
  constructor
  · decide
  · decide

/-- C2 (amended): every record accepted into the harvester's result
list has a truthy title whose stripped length is between the configured
minimum 3 and maximum 200 inclusive (the gate does not require a
letter). -/
theorem c2_accepted_title_bounds :
    ∀ (outs : List PageOutcome) (j : Job), j ∈ (harvest_jobs outs).records →
      ∃ s, j.title = some s ∧ s ≠ [] ∧
        3 ≤ (stripWs s).length ∧ (stripWs s).length ≤ 200 := by
  intro outs j hmem
  rcases mem_harvestGo_records outs 0 0 [] j hmem with h | ⟨cards, -, hj⟩
  · simp at h
  · rw [process_page] at hj
    obtain ⟨c, -, hc⟩ := List.mem_filterMap.mp hj
    obtain ⟨j0, hgate⟩ := accept_card_gate hc
    exact gate_true_title hgate

/-- Witness for C2 (amended) at a concrete accepted record. -/
theorem c2_accepted_title_bounds_witness :
    ∃ s, jSample.title = some s ∧ s ≠ [] ∧
      3 ≤ (stripWs s).length ∧ (stripWs s).length ≤ 200 := by
  apply c2_accepted_title_bounds [PageOutcome.fetched [sampleCard]] jSample
  have ha : accept_card sampleCard = some jSample := rfl
  have hr : (harvest_jobs [PageOutcome.fetched [sampleCard]]).records =
      [] ++ process_page [sampleCard] := rfl
  rw [hr, process_page, List.nil_append]
  rw [show ([sampleCard].filterMap accept_card) = [jSample] by
    rw [List.filterMap_cons, ha, List.filterMap_nil]]
  exact List.mem_singleton.mpr rfl

/-- Counterexample to C2 as stated: a card whose title text is
"12345" is accepted by extraction and the quality gate, yet its title
contains no letter. -/
theorem c2_letterless_title_accepted :
    ((harvest_jobs [PageOutcome.fetched [numericCard]]).records.map Job.title) =
      [some "12345".toList] ∧
    ("12345".toList.any isLetterAZ) = false := by
  constructor
  · decide
  · decide

/-- C9 (amended): after extraction the quality gate does change the
record — an invalid truthy company or location is overwritten with
`none` — but it never changes the title, URL, date, salary, insights,
applicant count or score. -/
theorem c9_gate_frame_mutation : ∀ j : Job,
    (validate_job_data_quality j).2.title = j.title ∧
    (validate_job_data_quality j).2.job_url = j.job_url ∧
    (validate_job_data_quality j).2.posted_date = j.posted_date ∧
    (validate_job_data_quality j).2.salary_info = j.salary_info ∧
    (validate_job_data_quality j).2.job_insights = j.job_insights ∧
    (validate_job_data_quality j).2.applicant_count = j.applicant_count ∧
    (validate_job_data_quality j).2.data_quality_score = j.data_quality_score ∧
    ((validate_job_data_quality j).2.company = j.company ∨
      (validate_job_data_quality j).2.company = none) ∧
    ((validate_job_data_quality j).2.location = j.location ∨
      (validate_job_data_quality j).2.location = none) :=
  gate_frame

/-- Counterexample to C9 as stated: the gate passes this record but
mutates it, nulling its one-character company. -/
theorem c9_gate_mutates_company :
    (validate_job_data_quality shortCompanyJob).1 = true ∧
    (validate_job_data_quality shortCompanyJob).2 ≠ shortCompanyJob ∧
    (validate_job_data_quality shortCompanyJob).2.company = none := by
  refine ⟨by decide, by decide, by decide⟩

/-- C5 (amended): the harvest loop processes a prefix of the page
outcomes and always returns the records accumulated over that prefix;
the failed-page counter counts its failed outcomes and never exceeds 3;
pages are left unprocessed only when it reached 3; the recovery
strategy runs at least once whenever two request-path page failures
occur, but never runs when no request-path failure occurs (failures
raised as exceptions do not trigger recovery). -/
theorem c5_failure_thresholds :
    ∀ outs : List PageOutcome,
      ∃ p, outs = p ++ (harvest_jobs outs).leftover ∧
        (harvest_jobs outs).records = collect_records p ∧
        (harvest_jobs outs).failedPages = p.countP isPageFailure ∧
        (harvest_jobs outs).failedPages ≤ 3 ∧
        ((harvest_jobs outs).leftover ≠ [] →
          (harvest_jobs outs).failedPages = 3) ∧
        (2 ≤ p.countP isRequestFailure →
          1 ≤ (harvest_jobs outs).recoveries) ∧
        (p.countP isRequestFailure = 0 →
          (harvest_jobs outs).recoveries = 0) := by
  intro outs
  obtain ⟨p, h1, h2, h3, h4, h5, h6, h7, h8⟩ :=
    harvestGo_spec outs 0 0 [] (by omega)
  refine ⟨p, h1, by simpa using h2, by simpa using h3, h4, h5, ?_, h8⟩
  intro hc
  exact h7 ⟨by omega, by omega⟩

/-- Witness for C5 (amended): three request-path failures abort the
harvest and the recovery strategy has run. -/
theorem c5_failure_thresholds_witness :
    1 ≤ (harvest_jobs
      [PageOutcome.failed, PageOutcome.failed, PageOutcome.failed]).recoveries := by
  obtain ⟨p, h1, -, -, -, -, h6, -⟩ := c5_failure_thresholds
    [PageOutcome.failed, PageOutcome.failed, PageOutcome.failed]
  have hl : (harvest_jobs
      [PageOutcome.failed, PageOutcome.failed, PageOutcome.failed]).leftover = [] := by
    decide
  rw [hl, List.append_nil] at h1
  apply h6
  rw [← h1]
  decide

/-- Counterexample to C5 as stated: two page failures raised as
exceptions bring the failure count to 2 without ever invoking the
recovery strategy. -/
theorem c5_exception_failures_skip_recovery :
    (harvest_jobs [PageOutcome.raised, PageOutcome.raised]).failedPages = 2 ∧
    (harvest_jobs [PageOutcome.raised, PageOutcome.raised]).recoveries = 0 := by
  refine ⟨by decide, by decide⟩

theorem noLead_append {x : Str} (hx : x ≠ []) (y : Str) :
    noLeadWs (x ++ y) = noLeadWs x := by
  cases x with
  | nil => exact absurd rfl hx
  | cons c t => rfl

theorem noTrail_eq : ∀ t : Str, noTrailWs t = noLeadWs t.reverse := by
  intro t
  induction t with
  | nil => rfl
  | cons c rest ih =>
    cases rest with
    | nil => simp [noTrailWs, noLeadWs]
    | cons d r =>
      have hne : (d :: r).reverse ≠ [] := by simp
      calc noTrailWs (c :: d :: r) = noTrailWs (d :: r) := rfl
        _ = noLeadWs (d :: r).reverse := ih
        _ = noLeadWs ((d :: r).reverse ++ [c]) := (noLead_append hne [c]).symm
        _ = noLeadWs (c :: d :: r).reverse := by simp

theorem rstrip_of_noTrail {t : Str} (h : noTrailWs t = true) : rstrip t = t := by
  rw [rstrip, dropWhile_eq_self_of_noLead (by rw [← noTrail_eq]; exact h),
    List.reverse_reverse]

theorem stripWs_of_good {t : Str} (h1 : noLeadWs t = true)
    (h2 : noTrailWs t = true) : stripWs t = t := by
  rw [stripWs, lstrip, dropWhile_eq_self_of_noLead h1]
  exact rstrip_of_noTrail h2

theorem noLead_take {t : Str} (h : noLeadWs t = true) (n : Nat) :
    noLeadWs (t.take n) = true := by
  cases t with
  | nil => simp [noLeadWs]
  | cons c rest =>
    cases n with
    | zero => rfl
    | succ m => exact h

theorem noAdj_take : ∀ (t : Str) (n : Nat), noAdjWs t = true →
    noAdjWs (t.take n) = true := by
  intro t
  induction t with
  | nil => intro n _; simp [noAdjWs]
  | cons c rest ih =>
    intro n h
    cases n with
    | zero => rfl
    | succ m =>
      rw [List.take_succ_cons]
      cases rest with
      | nil => simp [noAdjWs]
      | cons d r2 =>
        cases m with
        | zero => rfl
        | succ k =>
          rw [List.take_succ_cons]
          have hpair : (!(isWsC c && isWsC d)) = true := by
            simp [noAdjWs] at h
            simp [h.1]
          have hrest : noAdjWs ((d :: r2).take (k + 1)) = true :=
            ih (k + 1) (noAdjWs_of_cons h)
          rw [List.take_succ_cons] at hrest
          simp [noAdjWs] at hpair hrest ⊢
          exact ⟨hpair, hrest⟩

theorem all_take {p : Char → Bool} {t : Str} (h : t.all p = true) (n : Nat) :
    (t.take n).all p = true := by
  rw [List.all_eq_true] at h ⊢
  intro x hx
  exact h x (List.take_subset n t hx)

theorem noAdjWs_append : ∀ {a : Str} (b : Str), noAdjWs a = true →
    noAdjWs b = true → noLeadWs b = true → noAdjWs (a ++ b) = true := by
  intro a
  induction a with
  | nil => intro b _ hb _; exact hb
  | cons x a2 ih =>
    intro b ha hb hlb
    cases a2 with
    | nil =>
      cases b with
      | nil => exact ha
      | cons y b2 =>
        have hy : isWsC y = false := by simpa [noLeadWs] using hlb
        simp [noAdjWs, hy]
        exact hb
    | cons x2 a3 =>
      have hpair : (!(isWsC x && isWsC x2)) = true := by
        simp [noAdjWs] at ha
        simp [ha.1]
      have hrest : noAdjWs ((x2 :: a3) ++ b) = true :=
        ih b (noAdjWs_of_cons ha) hb hlb
      rw [List.cons_append]
      rw [List.cons_append] at hrest
      simp [noAdjWs] at hpair hrest ⊢
      exact ⟨hpair, hrest⟩

theorem goodStr_mk {t : Str} (h1 : noLeadWs t = true) (h2 : noTrailWs t = true)
    (h3 : noAdjWs t = true) (h4 : wsSpace t = true) : goodStr t = true := by
  simp [goodStr, h1, h2, h3, h4]

theorem goodStr_parts {t : Str} (h : goodStr t = true) :
    noLeadWs t = true ∧ noTrailWs t = true ∧ noAdjWs t = true ∧
      wsSpace t = true := by
  simp only [goodStr, Bool.and_eq_true] at h
  exact ⟨h.1.1.1, h.1.1.2, h.1.2, h.2⟩

/-- The summary cleaner is idempotent. -/
theorem clean_summary_idem (s : Str) :
    clean_summary (clean_summary s) = clean_summary s := by
  obtain ⟨hl, ht, ha, hw⟩ := goodStr_parts (goodStr_collapseWs s)
  by_cases h5 : 500 < (collapseWs s).length
  · have hne : collapseWs s ≠ [] := by
      intro h
      rw [h] at h5
      simp at h5
    have h497 : ((collapseWs s).take 497).length = 497 := by
      rw [List.length_take]
      omega
    have htake_ne : (collapseWs s).take 497 ≠ [] := by
      intro h
      have := congrArg List.length h
      rw [h497] at this
      simp at this
    have hdots_ne : ("...".toList : Str).reverse ≠ [] := by decide
    have huL : noLeadWs ((collapseWs s).take 497 ++ "...".toList) = true := by
      rw [noLead_append htake_ne]
      exact noLead_take hl 497
    have huT : noTrailWs ((collapseWs s).take 497 ++ "...".toList) = true := by
      rw [noTrail_eq, List.reverse_append, noLead_append hdots_ne]
      decide
    have huA : noAdjWs ((collapseWs s).take 497 ++ "...".toList) = true :=
      noAdjWs_append _ (noAdj_take _ 497 ha) (by decide) (by decide)
    have huW : wsSpace ((collapseWs s).take 497 ++ "...".toList) = true := by
      have hw' : ((collapseWs s).take 497).all (fun c => !isWsC c || c = ' ') = true :=
        all_take hw 497
      show (((collapseWs s).take 497) ++ "...".toList).all
        (fun c => !isWsC c || c = ' ') = true
      rw [List.all_append, hw', Bool.true_and]
      decide
    have hulen : ((collapseWs s).take 497 ++ "...".toList).length = 500 := by
      rw [List.length_append, h497]
      rfl
    have e1 : clean_summary s =
        stripWs ((collapseWs s).take 497 ++ "...".toList) := by
      simp only [clean_summary]
      rw [if_pos h5]
    have e2 : stripWs ((collapseWs s).take 497 ++ "...".toList) =
        (collapseWs s).take 497 ++ "...".toList := stripWs_of_good huL huT
    rw [e1, e2]
    simp only [clean_summary]
    rw [collapseWs_of_goodStr (goodStr_mk huL huT huA huW), hulen]
    rw [if_neg (by omega)]
    exact e2
  · have e1 : clean_summary s = collapseWs s := by
      simp only [clean_summary]
      rw [if_neg h5]
      exact stripWs_of_good hl ht
    rw [e1]
    simp only [clean_summary]
    rw [collapseWs_idem s]
    rw [if_neg h5]
    exact stripWs_of_good hl ht

theorem try1_none_iff (t : Str) : ∀ n : Nat, (try1 t n = none ↔
    ∀ k, 1 ≤ k → k ≤ n → check1 (t.drop k) = none) := by
  intro n
  induction n with
  | zero => simp [try1]; omega
  | succ m ih =>
    constructor
    · intro h k h1 hk
      rw [try1] at h
      cases hc : check1 (t.drop (m + 1)) with
      | some reg => rw [hc] at h; cases h
      | none =>
        rw [hc] at h
        rcases Nat.lt_or_ge k (m + 1) with hlt | hge
        · exact ih.mp h k h1 (by omega)
        · have : k = m + 1 := by omega
          rw [this]
          exact hc
    · intro h
      rw [try1]
      rw [h (m + 1) (by omega) (by omega)]
      exact ih.mpr (fun k h1 hk => h k h1 (by omega))

theorem try1_some {t : Str} : ∀ {n : Nat} {g reg : Str},
    try1 t n = some (g, reg) →
    ∃ k, 1 ≤ k ∧ k ≤ n ∧ g = t.take k ∧ check1 (t.drop k) = some reg := by
  intro n
  induction n with
  | zero => intro g reg h; cases h
  | succ m ih =>
    intro g reg h
    rw [try1] at h
    cases hc : check1 (t.drop (m + 1)) with
    | some reg2 =>
      rw [hc] at h
      injection h with h2
      injection h2 with ha hb
      exact ⟨m + 1, by omega, by omega, ha.symm, by rw [hc, hb]⟩
    | none =>
      rw [hc] at h
      obtain ⟨k, h1, hk, hg, hck⟩ := ih h
      exact ⟨k, h1, by omega, hg, hck⟩

theorem try1_first {t : Str} {n : Nat} {reg : Str} (h1 : 1 ≤ n)
    (h : check1 (t.drop n) = some reg) : try1 t n = some (t.take n, reg) := by
  cases n with
  | zero => omega
  | succ m => rw [try1, h]

theorem try2_none_iff (t : Str) : ∀ n : Nat, (try2 t n = none ↔
    ∀ k, 1 ≤ k → k ≤ n → check2 (t.drop k) = none) := by
  intro n
  induction n with
  | zero => simp [try2]; omega
  | succ m ih =>
    constructor
    · intro h k h1 hk
      rw [try2] at h
      cases hc : check2 (t.drop (m + 1)) with
      | some g2 => rw [hc] at h; cases h
      | none =>
        rw [hc] at h
        rcases Nat.lt_or_ge k (m + 1) with hlt | hge
        · exact ih.mp h k h1 (by omega)
        · have : k = m + 1 := by omega
          rw [this]
          exact hc
    · intro h
      rw [try2]
      rw [h (m + 1) (by omega) (by omega)]
      exact ih.mpr (fun k h1 hk => h k h1 (by omega))

theorem try2_some {t : Str} : ∀ {n : Nat} {g g2 : Str},
    try2 t n = some (g, g2) →
    ∃ k, 1 ≤ k ∧ k ≤ n ∧ g = t.take k ∧ check2 (t.drop k) = some g2 := by
  intro n
  induction n with
  | zero => intro g g2 h; cases h
  | succ m ih =>
    intro g g2 h
    rw [try2] at h
    cases hc : check2 (t.drop (m + 1)) with
    | some gg =>
      rw [hc] at h
      injection h with h2
      injection h2 with ha hb
      exact ⟨m + 1, by omega, by omega, ha.symm, by rw [hc, hb]⟩
    | none =>
      rw [hc] at h
      obtain ⟨k, h1, hk, hg, hck⟩ := ih h
      exact ⟨k, h1, by omega, hg, hck⟩

theorem try2_first {t : Str} {n : Nat} {g2 : Str} (h1 : 1 ≤ n)
    (h : check2 (t.drop n) = some g2) : try2 t n = some (t.take n, g2) := by
  cases n with
  | zero => omega
  | succ m => rw [try2, h]

theorem isWsC_cases {c : Char} (h : isWsC c = true) :
    c = ' ' ∨ c = '\t' ∨ c = '\n' ∨ c = '\r' ∨ c = '\x0b' ∨ c = '\x0c' := by
  simp [isWsC] at h
  tauto

theorem upper_not_ws {a : Char} (h : isUpperAZ a = true) : isWsC a = false := by
  simp [isUpperAZ] at h
  by_contra hw
  simp at hw
  rcases isWsC_cases hw with h1 | h1 | h1 | h1 | h1 | h1 <;>
    (subst h1; revert h; decide)

theorem letter_not_ws {a : Char} (h : isLetterAZ a = true) : isWsC a = false := by
  simp [isLetterAZ] at h
  by_contra hw
  simp at hw
  rcases isWsC_cases hw with h1 | h1 | h1 | h1 | h1 | h1 <;>
    subst h1 <;> rcases h with h2 | h2 <;> revert h2 <;> decide

theorem upper_ne_comma {a : Char} (h : isUpperAZ a = true) : a ≠ ',' := by
  intro he
  subst he
  revert h
  decide

theorem letterOrWs_ne_comma {a : Char}
    (h : (isLetterAZ a || isWsC a) = true) : a ≠ ',' := by
  intro he
  subst he
  revert h
  decide

theorem ws_not_nl_of_wsSpace {t : Str} (h : wsSpace t = true) :
    noNL t = true := by
  rw [noNL, List.all_eq_true]
  intro c hc
  rw [wsSpace, List.all_eq_true] at h
  have := h c hc
  simp at this ⊢
  intro he
  subst he
  simp [isWsC] at this

theorem noNL_sub {t u : Str} (h : noNL t = true) (hsub : u ⊆ t) :
    noNL u = true := by
  rw [noNL, List.all_eq_true] at h ⊢
  exact fun c hc => h c (hsub hc)

theorem tailOK_of_noNL {u : Str} (h : noNL u = true) : tailOK u = true := by
  rw [tailOK, h]
  rfl

theorem noLead_dropWhile (l : Str) :
    noLeadWs (l.dropWhile isWsC) = true := by
  rcases dropWhile_head_false isWsC l with h | ⟨c, v, heq, hc⟩
  · rw [h]; rfl
  · rw [heq]; simpa [noLeadWs] using hc

theorem rstrip_decomp (x : Str) :
    x = rstrip x ++ (x.reverse.takeWhile isWsC).reverse ∧
      ((x.reverse.takeWhile isWsC).reverse).all isWsC = true := by
  constructor
  · conv_lhs => rw [← List.reverse_reverse x,
      ← List.takeWhile_append_dropWhile (p := isWsC) (l := x.reverse)]
    rw [List.reverse_append]
    rfl
  · rw [List.all_reverse, List.all_eq_true]
    intro c hc
    exact List.mem_takeWhile_imp hc

theorem rstrip_ne_nil {x : Str} (hx : x ≠ []) (hl : noLeadWs x = true) :
    rstrip x ≠ [] := by
  intro h
  rw [rstrip] at h
  have h2 : x.reverse.dropWhile isWsC = [] := by
    have := congrArg List.reverse h
    simpa using this
  rw [List.dropWhile_eq_nil_iff] at h2
  cases x with
  | nil => exact hx rfl
  | cons c v =>
    have hc : isWsC c = false := by simpa [noLeadWs] using hl
    have : isWsC c = true := h2 c (by simp)
    rw [hc] at this
    cases this

theorem noTrail_rstrip (x : Str) : noTrailWs (rstrip x) = true := by
  rw [noTrail_eq, rstrip, List.reverse_reverse]
  exact noLead_dropWhile x.reverse

theorem noLead_rstrip {x : Str} (hl : noLeadWs x = true) :
    noLeadWs (rstrip x) = true := by
  cases hr : rstrip x with
  | nil => rfl
  | cons c v =>
    obtain ⟨hdec, -⟩ := rstrip_decomp x
    rw [hr] at hdec
    rw [hdec, List.cons_append] at hl
    simpa [noLeadWs] using hl

theorem suffix_not_all_ws {t w u : Str} (ht : noTrailWs t = true)
    (hdec : t = w ++ u) (hu : u ≠ []) : u.all isWsC = false := by
  rw [noTrail_eq, hdec, List.reverse_append] at ht
  have hne : u.reverse ≠ [] := by simpa using hu
  rw [noLead_append hne] at ht
  cases hrev : u.reverse with
  | nil => exact absurd hrev (by simpa using hu)
  | cons c v =>
    rw [hrev] at ht
    have hc : isWsC c = false := by simpa [noLeadWs] using ht
    have hcm : c ∈ u := by
      rw [← List.mem_reverse, hrev]
      simp
    rw [Bool.eq_false_iff]
    intro hall
    rw [List.all_eq_true] at hall
    rw [hall c hcm] at hc
    cases hc

theorem noTrail_suffix {t w u : Str} (ht : noTrailWs t = true)
    (hdec : t = w ++ u) : noTrailWs u = true := by
  by_cases hu : u = []
  · rw [hu]; rfl
  · rw [noTrail_eq]
    rw [noTrail_eq, hdec, List.reverse_append] at ht
    have hne : u.reverse ≠ [] := by simpa using hu
    rw [noLead_append hne] at ht
    exact ht

theorem noAdj_suffix : ∀ {w u : Str}, noAdjWs (w ++ u) = true →
    noAdjWs u = true := by
  intro w
  induction w with
  | nil => intro u h; exact h
  | cons c w2 ih => intro u h; exact ih (noAdjWs_of_cons h)

theorem noAdj_of_append_left : ∀ {a b : Str}, noAdjWs (a ++ b) = true →
    noAdjWs a = true := by
  intro a
  induction a with
  | nil => intro b _; rfl
  | cons x a2 ih =>
    intro b h
    cases a2 with
    | nil => rfl
    | cons x2 a3 =>
      have h2 : noAdjWs (x :: x2 :: (a3 ++ b)) = true := h
      have hp : (!(isWsC x && isWsC x2)) = true := by
        simp [noAdjWs] at h2
        simp [h2.1]
      have hr : noAdjWs (x2 :: a3) = true :=
        ih (show noAdjWs ((x2 :: a3) ++ b) = true from noAdjWs_of_cons h2)
      simp [noAdjWs] at hp hr ⊢
      exact ⟨hp, hr⟩

theorem all_sub {p : Char → Bool} {t u : Str} (h : t.all p = true)
    (hsub : u ⊆ t) : u.all p = true := by
  rw [List.all_eq_true] at h ⊢
  exact fun c hc => h c (hsub hc)

theorem all_false_of_mem {p : Char → Bool} {l : Str} {x : Char}
    (hx : x ∈ l) (hp : p x = false) : l.all p = false := by
  rw [Bool.eq_false_iff]
  intro hall
  rw [List.all_eq_true] at hall
  rw [hall x hx] at hp
  cases hp

theorem dropWhile_append_not_all {p : Char → Bool} :
    ∀ {l : Str} (m : Str), l.all p = false →
      (l ++ m).dropWhile p = l.dropWhile p ++ m := by
  intro l
  induction l with
  | nil => intro m h; cases h
  | cons c l2 ih =>
    intro m h
    by_cases hc : p c = true
    · have hl2 : l2.all p = false := by
        rw [List.all_cons, hc, Bool.true_and] at h
        exact h
      rw [List.cons_append, List.dropWhile_cons_of_pos hc,
        List.dropWhile_cons_of_pos hc]
      exact ih m hl2
    · have hc' : p c = false := by simpa using hc
      rw [List.cons_append, List.dropWhile_cons_of_neg (by simp [hc']),
        List.dropWhile_cons_of_neg (by simp [hc'])]
      rfl

theorem takeWhile_append_comma : ∀ {c : Str} (z : Str),
    (∀ x ∈ c, x ≠ ',') → (c ++ ',' :: z).takeWhile notComma = c := by
  intro c
  induction c with
  | nil =>
    intro z _
    rw [List.nil_append, List.takeWhile_cons_of_neg]
    simp [notComma]
  | cons x c2 ih =>
    intro z h
    have hx : notComma x = true := by
      simp [notComma]
      exact h x (by simp)
    rw [List.cons_append, List.takeWhile_cons_of_pos hx, ih z]
    intro y hy
    exact h y (by simp [hy])

theorem commaFreeLen_le (t : Str) : commaFreeLen t ≤ t.length :=
  (List.takeWhile_prefix notComma).length_le

theorem mem_take_commaFree {t : Str} {k : Nat} (hk : k ≤ commaFreeLen t) :
    ∀ x ∈ t.take k, x ≠ ',' := by
  intro x hx
  obtain ⟨u, hu⟩ := List.takeWhile_prefix (l := t) (p := notComma)
  have htk : t.take k = (t.takeWhile notComma).take k := by
    conv_lhs => rw [← hu]
    rw [List.take_append_of_le_length]
    exact hk
  rw [htk] at hx
  have hx2 : x ∈ t.takeWhile notComma := List.take_subset k _ hx
  have := List.mem_takeWhile_imp hx2
  simpa [notComma] using this

theorem commaFreeLen_append_ge : ∀ {a : Str} (b : Str),
    (∀ x ∈ a, x ≠ ',') → a.length ≤ commaFreeLen (a ++ b) := by
  intro a
  induction a with
  | nil => intro b _; simp
  | cons x a2 ih =>
    intro b h
    have hx : notComma x = true := by
      simp [notComma]
      exact h x (by simp)
    rw [commaFreeLen, List.cons_append, List.takeWhile_cons_of_pos hx]
    have := ih b (fun y hy => h y (by simp [hy]))
    rw [commaFreeLen] at this
    simpa using this

theorem check1_some_shape {u reg : Str} (h : check1 u = some reg) :
    ∃ a b, reg = [a, b] ∧ isUpperAZ a = true ∧ isUpperAZ b = true := by
  cases u with
  | nil => cases h
  | cons c v =>
    rw [check1] at h
    cases hd : (dropComma (c :: v)).dropWhile isWsC with
    | nil => rw [hd] at h; cases h
    | cons a rest =>
      cases rest with
      | nil => rw [hd] at h; cases h
      | cons b rest2 =>
        rw [hd] at h
        dsimp only at h
        by_cases hcond : (isUpperAZ a && isUpperAZ b && tailOK rest2) = true
        · rw [if_pos hcond] at h
          injection h with h2
          simp at hcond
          exact ⟨a, b, h2.symm, hcond.1.1, hcond.1.2⟩
        · rw [if_neg hcond] at h
          cases h

theorem strip_take_facts {t : Str} (hg : goodStr t = true) {k : Nat}
    (hk1 : 1 ≤ k) (hkK : k ≤ commaFreeLen t) :
    stripWs (t.take k) ≠ [] ∧
    noLeadWs (stripWs (t.take k)) = true ∧
    noTrailWs (stripWs (t.take k)) = true ∧
    noAdjWs (stripWs (t.take k)) = true ∧
    wsSpace (stripWs (t.take k)) = true ∧
    (∀ x ∈ stripWs (t.take k), x ≠ ',') ∧
    ∃ w, t = stripWs (t.take k) ++ w ++ t.drop k ∧ w.all isWsC = true := by
  obtain ⟨hl, ht, ha, hw⟩ := goodStr_parts hg
  have hkt : k ≤ t.length := le_trans hkK (commaFreeLen_le t)
  have htne : t ≠ [] := by
    intro h
    subst h
    simp at hkt
    omega
  have htake_ne : t.take k ≠ [] := by
    intro h
    have h2 : (t.take k).length = 0 := by
      rw [h]
      rfl
    rw [List.length_take] at h2
    omega
  have hLtake : noLeadWs (t.take k) = true := noLead_take hl k
  have hstrip : stripWs (t.take k) = rstrip (t.take k) := by
    rw [stripWs, lstrip, dropWhile_eq_self_of_noLead hLtake]
  obtain ⟨hdec0, hw0⟩ := rstrip_decomp (t.take k)
  have hcsub : stripWs (t.take k) ⊆ t := by
    intro x hx
    rw [hstrip] at hx
    have hx2 : x ∈ t.take k := by
      rw [hdec0]
      exact List.mem_append_left _ hx
    exact List.take_subset k t hx2
  refine ⟨?_, ?_, ?_, ?_, ?_, ?_, ?_⟩
  · rw [hstrip]
    exact rstrip_ne_nil htake_ne hLtake
  · rw [hstrip]
    exact noLead_rstrip hLtake
  · rw [hstrip]
    exact noTrail_rstrip _
  · rw [hstrip]
    have h1 : noAdjWs (t.take k) = true := noAdj_take t k ha
    rw [hdec0] at h1
    exact noAdj_of_append_left h1
  · exact all_sub hw hcsub
  · intro x hx
    rw [hstrip] at hx
    have hx2 : x ∈ t.take k := by
      rw [hdec0]
      exact List.mem_append_left _ hx
    exact mem_take_commaFree hkK x hx2
  · refine ⟨((t.take k).reverse.takeWhile isWsC).reverse, ?_, hw0⟩
    conv_lhs => rw [← List.take_append_drop k t]
    congr 1
    rw [hstrip]
    exact hdec0

theorem stripWs_upper_pair {a b : Char} (hua : isUpperAZ a = true)
    (hub : isUpperAZ b = true) : stripWs [a, b] = [a, b] :=
  stripWs_of_good (by simp [noLeadWs, upper_not_ws hua])
    (by simp [noTrailWs, upper_not_ws hub])

theorem check1_comma_space_pair {a b : Char} (hua : isUpperAZ a = true)
    (hub : isUpperAZ b = true) :
    check1 (',' :: ' ' :: a :: b :: []) = some [a, b] := by
  rw [check1]
  have hdropC : dropComma (',' :: ' ' :: a :: b :: []) = ' ' :: a :: b :: [] := by
    simp [dropComma]
  have hdw : (' ' :: a :: b :: []).dropWhile isWsC = a :: b :: [] := by
    rw [List.dropWhile_cons_of_pos (by decide),
      List.dropWhile_cons_of_neg (by simp [upper_not_ws hua])]
  rw [hdropC, hdw]
  dsimp only
  rw [if_pos (show (isUpperAZ a && isUpperAZ b && tailOK []) = true by
    rw [hua, hub]; decide)]

/-- Core of the location idempotence, first pattern: on the output
`c ++ ", " ++ [a, b]` the first pattern matches again with the same
groups, reproducing the output. -/
theorem clean_location_fix_of_loc1 {t g1 reg : Str} (hg : goodStr t = true)
    (hm : match_loc1 t = some (g1, reg)) :
    clean_location (stripWs g1 ++ [',', ' '] ++ stripWs reg) =
      stripWs g1 ++ [',', ' '] ++ stripWs reg := by
  obtain ⟨k, hk1, hkK, hgtake, hck⟩ := try1_some hm
  obtain ⟨a, b, hreg, hua, hub⟩ := check1_some_shape hck
  obtain ⟨hcne, hcL, hcT, hcA, hcW, hcC, -⟩ := strip_take_facts hg hk1 hkK
  rw [hgtake, hreg, stripWs_upper_pair hua hub]
  have hout : stripWs (t.take k) ++ [',', ' '] ++ [a, b] =
      stripWs (t.take k) ++ (',' :: ' ' :: a :: b :: []) := by
    rw [List.append_assoc]
    rfl
  rw [hout]
  have houtL : noLeadWs (stripWs (t.take k) ++ (',' :: ' ' :: a :: b :: [])) = true := by
    rw [noLead_append hcne]
    exact hcL
  have houtT : noTrailWs (stripWs (t.take k) ++ (',' :: ' ' :: a :: b :: [])) = true := by
    rw [noTrail_eq, List.reverse_append]
    have hrev : (',' :: ' ' :: a :: b :: []).reverse = b :: a :: ' ' :: ',' :: [] := by
      simp
    rw [hrev, noLead_append (by simp)]
    simp [noLeadWs, upper_not_ws hub]
  have houtA : noAdjWs (stripWs (t.take k) ++ (',' :: ' ' :: a :: b :: [])) = true := by
    have h1 : isWsC a = false := upper_not_ws hua
    have h2 : isWsC b = false := upper_not_ws hub
    have hcws : isWsC ',' = false := by decide
    have hsws : isWsC ' ' = true := by decide
    have htail : noAdjWs (',' :: ' ' :: a :: b :: []) = true := by
      simp [noAdjWs, h1, h2, hcws, hsws]
    have hleadtail : noLeadWs (',' :: ' ' :: a :: b :: []) = true := by
      simp [noLeadWs, hcws]
    exact noAdjWs_append _ hcA htail hleadtail
  have houtW : wsSpace (stripWs (t.take k) ++ (',' :: ' ' :: a :: b :: [])) = true := by
    rw [wsSpace] at hcW ⊢
    rw [List.all_append, hcW, Bool.true_and]
    have h1 : isWsC a = false := upper_not_ws hua
    have h2 : isWsC b = false := upper_not_ws hub
    have hcws : isWsC ',' = false := by decide
    have hsws : isWsC ' ' = true := by decide
    simp [h1, h2, hcws, hsws]
  have hcf : commaFreeLen (stripWs (t.take k) ++ (',' :: ' ' :: a :: b :: [])) =
      (stripWs (t.take k)).length := by
    rw [commaFreeLen, takeWhile_append_comma _ hcC]
  have hdrop : (stripWs (t.take k) ++ (',' :: ' ' :: a :: b :: [])).drop
      (stripWs (t.take k)).length = ',' :: ' ' :: a :: b :: [] :=
    List.drop_left _ _
  have htak : (stripWs (t.take k) ++ (',' :: ' ' :: a :: b :: [])).take
      (stripWs (t.take k)).length = stripWs (t.take k) :=
    List.take_left _ _
  have hm1out : match_loc1 (stripWs (t.take k) ++ (',' :: ' ' :: a :: b :: [])) =
      some (stripWs (t.take k), [a, b]) := by
    have hlen1 : 1 ≤ (stripWs (t.take k)).length := by
      have := List.length_pos.mpr hcne
      omega
    have hfirst := try1_first hlen1
      (by rw [hdrop]; exact check1_comma_space_pair hua hub)
    rw [match_loc1, hcf, hfirst, htak]
  simp only [clean_location]
  rw [collapseWs_of_goodStr (goodStr_mk houtL houtT houtA houtW), hm1out]
  dsimp only
  rw [stripWs_of_good hcL hcT, stripWs_upper_pair hua hub]
  rw [List.append_assoc]
  rfl

theorem dropComma_suffix {u : Str} : ∃ w0, u = w0 ++ dropComma u := by
  cases u with
  | nil => exact ⟨[], rfl⟩
  | cons c v =>
    by_cases hc : c = ','
    · refine ⟨[c], ?_⟩
      rw [dropComma, if_pos hc]
      rfl
    · refine ⟨[], ?_⟩
      rw [dropComma, if_neg hc]
      rfl

/-- Shape of a successful second-pattern continuation on a suffix of a
string with no trailing whitespace: the all-whitespace backtracking
branch is impossible, so the group is the greedily stripped remainder,
a nonempty suffix made of letters and whitespace. -/
theorem check2_some_concrete {t u g2 : Str} (hT : noTrailWs t = true)
    {w0 : Str} (hu : t = w0 ++ u) (h : check2 u = some g2) :
    g2 = (dropComma u).dropWhile isWsC ∧ g2 ≠ [] ∧
      g2.all (fun e => isLetterAZ e || isWsC e) = true ∧
      ∃ w2, t = w2 ++ g2 := by
  cases u with
  | nil => cases h
  | cons c v =>
    rw [check2] at h
    cases hdc : dropComma (c :: v) with
    | nil => rw [hdc] at h; cases h
    | cons d w =>
      rw [hdc] at h
      dsimp only at h
      obtain ⟨w1, hw1⟩ := dropComma_suffix (u := c :: v)
      rw [hdc] at hw1
      have hsufu1 : t = (w0 ++ w1) ++ (d :: w) := by
        rw [hu, hw1, List.append_assoc]
      have hnall : (d :: w).all isWsC = false :=
        suffix_not_all_ws hT hsufu1 (by simp)
      rw [if_neg (by rw [hnall]; simp)] at h
      by_cases hrem : ((d :: w).dropWhile isWsC).all
          (fun e => isLetterAZ e || isWsC e) = true
      · rw [if_pos hrem] at h
        injection h with h2
        have hremne : (d :: w).dropWhile isWsC ≠ [] := by
          intro hnil
          rw [List.dropWhile_eq_nil_iff] at hnil
          rw [Bool.eq_false_iff] at hnall
          apply hnall
          rw [List.all_eq_true]
          exact hnil
        obtain ⟨wtw, hwtw⟩ : ∃ wtw, d :: w = wtw ++ (d :: w).dropWhile isWsC :=
          ⟨(d :: w).takeWhile isWsC, (List.takeWhile_append_dropWhile isWsC (d :: w)).symm⟩
        refine ⟨h2.symm, h2 ▸ hremne, h2 ▸ hrem, (w0 ++ w1) ++ wtw, ?_⟩
        rw [← h2]
        rw [hsufu1]
        conv_lhs => rw [hwtw]
        simp [List.append_assoc]
      · rw [if_neg hrem] at h
        cases h

/-- If the first location pattern fails on a canonical string, then no
comma-free split point is followed by two uppercase letters: otherwise
the pattern would have matched there. -/
theorem no_upper_pair_of_loc1_none {t pre rest : Str} {x y : Char}
    (hg : goodStr t = true) (hm1 : match_loc1 t = none)
    (hdec : t = pre ++ x :: y :: rest) (hpre1 : 1 ≤ pre.length)
    (hpreC : ∀ e ∈ pre, e ≠ ',') :
    (isUpperAZ x && isUpperAZ y) = false := by
  obtain ⟨-, -, -, hw⟩ := goodStr_parts hg
  by_contra hcon
  rw [Bool.not_eq_false, Bool.and_eq_true] at hcon
  obtain ⟨hx, hy⟩ := hcon
  have hnone := (try1_none_iff t (commaFreeLen t)).mp hm1
  have hkK : pre.length ≤ commaFreeLen t := by
    rw [hdec]
    exact commaFreeLen_append_ge _ hpreC
  have hdropk : t.drop pre.length = x :: y :: rest := by
    rw [hdec]
    exact List.drop_left _ _
  have hnl : noNL rest = true := by
    apply noNL_sub (ws_not_nl_of_wsSpace hw)
    intro e he
    rw [hdec]
    simp [he]
  have hch : check1 (t.drop pre.length) = some [x, y] := by
    rw [hdropk, check1]
    have hdc : dropComma (x :: y :: rest) = x :: y :: rest := by
      rw [dropComma, if_neg (upper_ne_comma hx)]
    have hdw : (x :: y :: rest).dropWhile isWsC = x :: y :: rest :=
      List.dropWhile_cons_of_neg (by simp [upper_not_ws hx])
    rw [hdc, hdw]
    dsimp only
    rw [if_pos (show (isUpperAZ x && isUpperAZ y && tailOK rest) = true by
      rw [hx, hy, tailOK_of_noNL hnl]
      rfl)]
  rw [hnone pre.length hpre1 hkK] at hch
  cases hch

/-- Core of the location idempotence, second pattern: when the first
pattern fails and the second matches, the output `c ++ ", " ++ r` again
fails the first pattern and matches the second with the same groups,
reproducing the output. -/
theorem clean_location_fix_of_loc2 {t g1 g2 : Str} (hg : goodStr t = true)
    (hm1 : match_loc1 t = none) (hm2 : match_loc2 t = some (g1, g2)) :
    clean_location (stripWs g1 ++ [',', ' '] ++ stripWs g2) =
      stripWs g1 ++ [',', ' '] ++ stripWs g2 := by
  obtain ⟨hl, ht, ha, hw⟩ := goodStr_parts hg
  obtain ⟨k, hk1, hkK, hgtake, hck⟩ := try2_some hm2
  obtain ⟨hcne, hcL, hcT, hcA, hcW, hcC, w, hwdec, hwall⟩ :=
    strip_take_facts hg hk1 hkK
  have hudec : t = t.take k ++ t.drop k := (List.take_append_drop k t).symm
  obtain ⟨hg2eq, hg2ne, hg2all, w2, hsufr⟩ := check2_some_concrete ht hudec hck
  obtain ⟨hr, rtail, hrdef⟩ : ∃ a l, g2 = a :: l := by
    cases g2 with
    | nil => exact absurd rfl hg2ne
    | cons a l => exact ⟨a, l, rfl⟩
  have hrL : noLeadWs g2 = true := by
    rw [hg2eq]
    exact noLead_dropWhile _
  have hrT : noTrailWs g2 = true := noTrail_suffix ht hsufr
  have hrA : noAdjWs g2 = true := by
    have h2 := ha
    rw [hsufr] at h2
    exact noAdj_suffix h2
  have hrW : wsSpace g2 = true := by
    apply all_sub hw
    intro e he
    rw [hsufr]
    simp [he]
  have hrhw : isWsC hr = false := by
    have h2 := hrL
    rw [hrdef] at h2
    simpa [noLeadWs] using h2
  have hstripr : stripWs g2 = g2 := stripWs_of_good hrL hrT
  rw [hgtake, hstripr]
  have hout : stripWs (t.take k) ++ [',', ' '] ++ g2 =
      stripWs (t.take k) ++ (',' :: ' ' :: g2) := by
    rw [List.append_assoc]
    rfl
  rw [hout]
  have hcomma_nws : isWsC ',' = false := by decide
  have hspace_ws : isWsC ' ' = true := by decide
  have houtL : noLeadWs (stripWs (t.take k) ++ (',' :: ' ' :: g2)) = true := by
    rw [noLead_append hcne]
    exact hcL
  have houtT : noTrailWs (stripWs (t.take k) ++ (',' :: ' ' :: g2)) = true := by
    rw [noTrail_eq, List.reverse_append]
    have hrev : (',' :: ' ' :: g2).reverse = g2.reverse ++ ([' ', ','] : Str) := by
      simp
    rw [hrev, List.append_assoc, noLead_append (by simpa using hg2ne)]
    rw [← noTrail_eq]
    exact hrT
  have htailA : noAdjWs (',' :: ' ' :: g2) = true := by
    rw [hrdef]
    have h2 : noAdjWs (hr :: rtail) = true := by
      rw [← hrdef]
      exact hrA
    show noAdjWs (',' :: ' ' :: hr :: rtail) = true
    simp [noAdjWs, hcomma_nws, hspace_ws, hrhw, h2]
  have houtA : noAdjWs (stripWs (t.take k) ++ (',' :: ' ' :: g2)) = true := by
    apply noAdjWs_append _ hcA htailA
    simp [noLeadWs, hcomma_nws]
  have houtW : wsSpace (stripWs (t.take k) ++ (',' :: ' ' :: g2)) = true := by
    rw [wsSpace] at hcW hrW ⊢
    rw [List.all_append, hcW, Bool.true_and, List.all_cons, List.all_cons, hrW]
    decide
  have hcf : commaFreeLen (stripWs (t.take k) ++ (',' :: ' ' :: g2)) =
      (stripWs (t.take k)).length := by
    rw [commaFreeLen, takeWhile_append_comma _ hcC]
  have hdrop : (stripWs (t.take k) ++ (',' :: ' ' :: g2)).drop
      (stripWs (t.take k)).length = ',' :: ' ' :: g2 :=
    List.drop_left _ _
  have htak : (stripWs (t.take k) ++ (',' :: ' ' :: g2)).take
      (stripWs (t.take k)).length = stripWs (t.take k) :=
    List.take_left _ _
  have hlen1 : 1 ≤ (stripWs (t.take k)).length := by
    have h2 := List.length_pos.mpr hcne
    omega
  have hdc2 : dropComma (',' :: ' ' :: g2) = ' ' :: g2 := by
    simp [dropComma]
  have hdw2 : (' ' :: g2).dropWhile isWsC = g2 := by
    rw [List.dropWhile_cons_of_pos (by decide)]
    exact dropWhile_eq_self_of_noLead hrL
  have hnall2 : (' ' :: g2).all isWsC = false := by
    apply all_false_of_mem _ hrhw
    rw [hrdef]
    simp
  have hch2out : check2 (',' :: ' ' :: g2) = some g2 := by
    rw [check2, hdc2]
    dsimp only
    rw [if_neg (by rw [hnall2]; simp), hdw2, if_pos hg2all]
  have hm2out : match_loc2 (stripWs (t.take k) ++ (',' :: ' ' :: g2)) =
      some (stripWs (t.take k), g2) := by
    have hfirst := try2_first hlen1 (by rw [hdrop]; exact hch2out)
    rw [match_loc2, hcf, hfirst, htak]
  have hnone_t := (try1_none_iff t (commaFreeLen t)).mp hm1
  have hm1out : match_loc1 (stripWs (t.take k) ++ (',' :: ' ' :: g2)) = none := by
    rw [match_loc1, hcf, try1_none_iff]
    intro m hmge hmle
    rcases eq_or_lt_of_le hmle with heq | hlt
    · subst heq
      rw [hdrop, check1, hdc2, hdw2, hrdef]
      cases rtail with
      | nil => rfl
      | cons y rt2 =>
        dsimp only
        rw [if_neg]
        intro hcond
        rw [Bool.and_eq_true, Bool.and_eq_true] at hcond
        obtain ⟨⟨hxf, hyf⟩, htok⟩ := hcond
        cases hu : t.drop k with
        | nil =>
          rw [hu] at hck
          cases hck
        | cons cu vu =>
          have hscrut : (dropComma (cu :: vu)).dropWhile isWsC =
              hr :: y :: rt2 := by
            rw [← hu, ← hg2eq]
            exact hrdef
          have hch1 : check1 (t.drop k) = some [hr, y] := by
            rw [hu, check1, hscrut]
            dsimp only
            rw [if_pos (show (isUpperAZ hr && isUpperAZ y && tailOK rt2) = true by
              rw [hxf, hyf, htok]
              rfl)]
          rw [hnone_t k hk1 hkK] at hch1
          cases hch1
    · have hdropm : (stripWs (t.take k) ++ (',' :: ' ' :: g2)).drop m =
          (stripWs (t.take k)).drop m ++ (',' :: ' ' :: g2) :=
        List.drop_append_of_le_length (le_of_lt hlt)
      have hdm_ne : (stripWs (t.take k)).drop m ≠ [] := by
        intro hnil
        have h2 := congrArg List.length hnil
        simp [List.length_drop] at h2
        omega
      have hcdec : stripWs (t.take k) =
          (stripWs (t.take k)).take m ++ (stripWs (t.take k)).drop m :=
        (List.take_append_drop m _).symm
      have hnallc : ((stripWs (t.take k)).drop m).all isWsC = false :=
        suffix_not_all_ws hcT hcdec hdm_ne
      obtain ⟨e, etail, hedef⟩ : ∃ a l, (stripWs (t.take k)).drop m = a :: l := by
        cases hdm : (stripWs (t.take k)).drop m with
        | nil => exact absurd hdm hdm_ne
        | cons a l => exact ⟨a, l, rfl⟩
      have he_mem : e ∈ stripWs (t.take k) := by
        apply List.drop_subset m
        rw [hedef]
        simp
      have hecomma : e ≠ ',' := hcC e he_mem
      rw [hdropm, hedef, List.cons_append, check1]
      have hdc3 : dropComma (e :: (etail ++ ',' :: ' ' :: g2)) =
          e :: (etail ++ ',' :: ' ' :: g2) := by
        rw [dropComma, if_neg hecomma]
      rw [hdc3]
      have hnalle : (e :: etail).all isWsC = false := by
        rw [← hedef]
        exact hnallc
      have hdwsplit : (e :: (etail ++ ',' :: ' ' :: g2)).dropWhile isWsC =
          (e :: etail).dropWhile isWsC ++ (',' :: ' ' :: g2) := by
        rw [← List.cons_append]
        exact dropWhile_append_not_all _ hnalle
      rw [hdwsplit]
      have hqne : (e :: etail).dropWhile isWsC ≠ [] := by
        intro hnil
        rw [List.dropWhile_eq_nil_iff] at hnil
        rw [Bool.eq_false_iff] at hnalle
        apply hnalle
        rw [List.all_eq_true]
        exact hnil
      obtain ⟨f, ftail, hfq⟩ : ∃ a l, (e :: etail).dropWhile isWsC = a :: l := by
        cases hq : (e :: etail).dropWhile isWsC with
        | nil => exact absurd hq hqne
        | cons a l => exact ⟨a, l, rfl⟩
      rw [hfq, List.cons_append]
      cases ftail with
      | nil =>
        rw [List.nil_append]
        dsimp only
        rw [if_neg (by simp [show isUpperAZ ',' = false by decide])]
      | cons y ft2 =>
        rw [List.cons_append]
        dsimp only
        rw [if_neg]
        have h1' : e :: etail =
            (e :: etail).takeWhile isWsC ++ (f :: y :: ft2) := by
          conv_lhs => rw [← List.takeWhile_append_dropWhile (p := isWsC)
            (l := e :: etail)]
          rw [hfq]
        have hstep : stripWs (t.take k) = (stripWs (t.take k)).take m ++
            ((e :: etail).takeWhile isWsC ++ (f :: y :: ft2)) := by
          conv_lhs => rw [hcdec, hedef]
          exact congrArg (fun z => (stripWs (t.take k)).take m ++ z) h1'
        have hdect : t = ((stripWs (t.take k)).take m ++
            (e :: etail).takeWhile isWsC) ++
            (f :: y :: (ft2 ++ (w ++ t.drop k))) := by
          conv_lhs => rw [hwdec]
          conv_lhs => rw [hstep]
          simp [List.append_assoc]
        have hprelen : 1 ≤ ((stripWs (t.take k)).take m ++
            (e :: etail).takeWhile isWsC).length := by
          rw [List.length_append, List.length_take]
          omega
        have hpreC : ∀ x ∈ (stripWs (t.take k)).take m ++
            (e :: etail).takeWhile isWsC, x ≠ ',' := by
          intro x hx
          rcases List.mem_append.mp hx with h2 | h2
          · exact hcC x (List.take_subset _ _ h2)
          · apply hcC
            have h3 : x ∈ e :: etail := by
              rw [h1']
              exact List.mem_append.mpr (Or.inl h2)
            rw [← hedef] at h3
            exact List.drop_subset _ _ h3
        have hpair := no_upper_pair_of_loc1_none hg hm1 hdect hprelen hpreC
        intro hcond
        rw [Bool.and_eq_true] at hcond
        rw [hcond.1] at hpair
        simp at hpair
  simp only [clean_location]
  rw [collapseWs_of_goodStr (goodStr_mk houtL houtT houtA houtW), hm1out]
  dsimp only
  rw [hm2out]
  dsimp only
  rw [stripWs_of_good hcL hcT, hstripr]
  rw [List.append_assoc]
  rfl

/-- `_clean_location` is idempotent: whichever branch produced the
output, running the cleaner again reproduces it unchanged. -/
theorem clean_location_idem (s : Str) :
    clean_location (clean_location s) = clean_location s := by
  have hg : goodStr (collapseWs s) = true := goodStr_collapseWs s
  cases hm1 : match_loc1 (collapseWs s) with
  | some p =>
    obtain ⟨g1, reg⟩ := p
    have hout : clean_location s = stripWs g1 ++ [',', ' '] ++ stripWs reg := by
      simp only [clean_location]
      rw [hm1]
    rw [hout]
    exact clean_location_fix_of_loc1 hg hm1
  | none =>
    cases hm2 : match_loc2 (collapseWs s) with
    | some p =>
      obtain ⟨g1, g2⟩ := p
      have hout : clean_location s = stripWs g1 ++ [',', ' '] ++ stripWs g2 := by
        simp only [clean_location]
        rw [hm1]
        dsimp only
        rw [hm2]
      rw [hout]
      exact clean_location_fix_of_loc2 hg hm1 hm2
    | none =>
      have hparts := goodStr_parts hg
      have hout : clean_location s = collapseWs s := by
        simp only [clean_location]
        rw [hm1]
        dsimp only
        rw [hm2]
        dsimp only
        exact stripWs_of_good hparts.1 hparts.2.1
      rw [hout]
      simp only [clean_location]
      rw [collapseWs_of_goodStr hg, hm1]
      dsimp only
      rw [hm2]
      dsimp only
      exact stripWs_of_good hparts.1 hparts.2.1

/-- Claim C4 (counterexample): the title cleaner is not idempotent.
On "AI (remote) (remote)" the first pass strips only the final
"(remote)" suffix, so a second pass strips again and the results
differ. -/
theorem c4_title_cleaner_not_idempotent :
    clean_title (clean_title ("AI (remote) (remote)".toList)) ≠
      clean_title ("AI (remote) (remote)".toList) := by
  decide

/-- Claim C4 (amended): the summary and location cleaners are
idempotent, but the title, company and URL cleaners are not: a second
pass can strip a further noise suffix (title, company) or whitespace
left in front of a removed query string (URL). -/
theorem c4_cleaner_idempotence_amended :
    (∀ s : Str, clean_summary (clean_summary s) = clean_summary s) ∧
    (∀ s : Str, clean_location (clean_location s) = clean_location s) ∧
    clean_title (clean_title ("AI (remote) (remote)".toList)) ≠
      clean_title ("AI (remote) (remote)".toList) ∧
    clean_company (clean_company ("A - hiring now - hiring now".toList)) ≠
      clean_company ("A - hiring now - hiring now".toList) ∧
    clean_url (clean_url ("ab ?x".toList)) ≠ clean_url ("ab ?x".toList) := by
  refine ⟨clean_summary_idem, clean_location_idem, by decide, by decide, by decide⟩

end Harvester
